import Mathlib

/-!
Verification of the running-heatmap spatial activity index and query engine.

The JavaScript source is shallowly embedded over exact rationals (ℚ stands in
for JS numbers; JS `Math.sqrt(dx*dx+dy*dy) > tolerance` is embedded as the
equivalent comparison of squares, since all tolerances in the source are
nonnegative).  Activity ids are embedded as `Nat`: the source stores ids as
numbers in the spatial index and as their decimal strings in the run table and
converts with `toString`/`parseInt`, which is injective on the ids it creates,
so membership questions coincide.

Embedded components:
* `Heatmap` — the mobile `SpatialIndex` class (full/high/mid/low tiers):
  `simplify`, `addRun`, `loadUserRuns`, `getRunsForBounds`, `filterRunsByIds`,
  `getRunsInPolygon`, `getZoomLevel`, `bboxIntersects`, `getPolygonBbox`,
  `pointInPolygon`, `lineIntersectsPolygon`, `segmentsIntersect`.
* `Heatmap.M12` — the variant of the class whose tier table has no `full`
  entry (`getZoomLevel`, fallback chain `mid || low || high`), with its
  `filterRunsByIds`.
* `Heatmap.Cache` — the map-client viewport cache: `withinBounds`,
  `getCached`, cache entries `{zoom, bounds, data}` stored by `fetchAndUpdate`.
-/

namespace Heatmap

/-- A `[lon, lat]` coordinate pair. -/
structure Pt where
  x : ℚ
  y : ℚ
deriving DecidableEq, Repr

attribute [ext] Pt

/-- A bounding box `[minLng, minLat, maxLng, maxLat]`. -/
structure Bbox where
  minLng : ℚ
  minLat : ℚ
  maxLng : ℚ
  maxLat : ℚ
deriving DecidableEq, Repr

/-- The four level-of-detail tiers. -/
inductive Tier where
  | full
  | high
  | mid
  | low
deriving DecidableEq, Repr

/-- A LineString geometry: just its coordinate list (the `type` tag carries no
information). -/
structure Geom where
  coordinates : List Pt
deriving DecidableEq, Repr

/-- The per-activity tier table.  Each field is `Option` because a stored run
object may lack a tier (JS `undefined`); a *present* geometry with an empty
coordinate list is still truthy in JS, which `some ⟨[]⟩` models. -/
structure Geoms where
  full : Option Geom
  high : Option Geom
  mid : Option Geom
  low : Option Geom
deriving DecidableEq, Repr

/-- Activity metadata is carried around opaquely and never inspected by the
index or the queries; a string models the whole record. -/
abbrev Metadata := String

/-- A value of the `runsData` table: `{geoms, bbox, metadata}`. -/
structure RunData where
  geoms : Geoms
  bbox : Bbox
  metadata : Metadata
deriving DecidableEq, Repr

/-- A spatial-index entry: `{id, bbox}`. -/
structure IdxEntry where
  id : Nat
  bbox : Bbox
deriving DecidableEq, Repr

/-- A stored user run `{id, geoms, bbox, metadata}` (id kept numeric, see the
file comment). -/
structure Run where
  id : Nat
  geoms : Geoms
  bbox : Bbox
  metadata : Metadata
deriving DecidableEq, Repr

/-- The mutable state of the `SpatialIndex` class. -/
structure SIState where
  loaded : Bool
  runsData : List (Nat × RunData)
  spatialIndex : List IdxEntry
  userRuns : List Run
  nextId : Nat
deriving Repr

/-- Tier lookup `runData.geoms[zoomLevel]`. -/
def tierGet (g : Geoms) : Tier → Option Geom
  | .full => g.full
  | .high => g.high
  | .mid => g.mid
  | .low => g.low

/-- `getZoomLevel(zoom)`: zoom≥15 → full, ≥13 → high, ≥10 → mid, else low. -/
def getZoomLevel (zoom : ℚ) : Tier :=
  if zoom ≥ 15 then .full
  else if zoom ≥ 13 then .high
  else if zoom ≥ 10 then .mid
  else .low

/-- `bboxIntersects(bbox1, bbox2)`: the standard rectangle-overlap test with
strict comparisons, so touching boxes intersect. -/
def bboxIntersects (b1 b2 : Bbox) : Bool :=
  !(b1.maxLng < b2.minLng || b1.minLng > b2.maxLng ||
    b1.maxLat < b2.minLat || b1.minLat > b2.maxLat)

/-- `getPolygonBbox(coords)`: fold of min/max over the coordinate list.  The
source starts from ±Infinity; on the nonempty lists it is ever applied to this
is the same as folding from the first element, which is how it is embedded
(ℚ has no infinities).  On `[]` we return a dummy box. -/
def getPolygonBbox (coords : List Pt) : Bbox :=
  match coords with
  | [] => ⟨0, 0, 0, 0⟩
  | c :: rest =>
    rest.foldl
      (fun bb p =>
        ⟨min bb.minLng p.x, min bb.minLat p.y, max bb.maxLng p.x, max bb.maxLat p.y⟩)
      ⟨c.x, c.y, c.x, c.y⟩

/-- One step of `simplify`'s walk: keep `c` iff its planar distance from the
last kept point exceeds `tolerance` (squared form of the source's
`Math.sqrt(dx*dx+dy*dy) > tolerance`, equivalent for the nonnegative
tolerances the source uses). -/
def farB (tolerance : ℚ) (last c : Pt) : Bool :=
  decide (tolerance * tolerance < (c.x - last.x) ^ 2 + (c.y - last.y) ^ 2)

/-- The interior walk of `simplify`: returns the kept interior points. -/
def keepAux (tolerance : ℚ) (last : Pt) : List Pt → List Pt
  | [] => []
  | c :: cs =>
    if farB tolerance last c then c :: keepAux tolerance c cs
    else keepAux tolerance last cs

/-- `simplify(coords, tolerance)`: lists of ≤ 2 points are returned unchanged;
otherwise keep the first point, walk the interior, and always append the last
point. -/
def simplify (coords : List Pt) (tolerance : ℚ) : List Pt :=
  if coords.length ≤ 2 then coords
  else
    match coords with
    | [] => []
    | c :: rest => c :: (keepAux tolerance c rest.dropLast ++ [rest.getLastD c])

/-- The tier table `addRun` builds: `full` is the raw track, the others are
simplified with tolerances 0.00005 / 0.0003 / 0.0009. -/
def buildGeoms (coords : List Pt) : Geoms :=
  { full := some ⟨coords⟩
    high := some ⟨simplify coords 0.00005⟩
    mid := some ⟨simplify coords 0.0003⟩
    low := some ⟨simplify coords 0.0009⟩ }

/-- `addRun(coords, metadata)`: register a new run in `runsData`,
`spatialIndex` and `userRuns`, returning the new state and the fresh id. -/
def addRun (st : SIState) (coords : List Pt) (metadata : Metadata) : SIState × Nat :=
  let id := st.nextId
  let bbox := getPolygonBbox coords
  let geoms := buildGeoms coords
  ({ st with
      runsData := (id, ⟨geoms, bbox, metadata⟩) :: st.runsData
      spatialIndex := st.spatialIndex ++ [⟨id, bbox⟩]
      userRuns := st.userRuns ++ [⟨id, geoms, bbox, metadata⟩]
      nextId := id + 1 },
    id)

/-- One iteration of `loadUserRuns`'s `forEach`: mirror a stored run into the
run table and the spatial index and bump `nextId`. -/
def loadOne (st : SIState) (run : Run) : SIState :=
  { st with
      runsData := (run.id, ⟨run.geoms, run.bbox, run.metadata⟩) :: st.runsData
      spatialIndex := st.spatialIndex ++ [⟨run.id, run.bbox⟩]
      userRuns := st.userRuns ++ [run]
      nextId := if run.id ≥ st.nextId then run.id + 1 else st.nextId }

/-- `loadUserRuns()`: fold `loadOne` over the stored run list. -/
def loadUserRuns (st : SIState) (stored : List Run) : SIState :=
  stored.foldl loadOne st

/-- The fallback chain `geoms['mid'] || geoms['low'] || geoms['high'] ||
geoms['full']` of `getRunsForBounds`: first *present* tier wins, regardless of
its point count. -/
def fallbackChain (g : Geoms) : Option Geom :=
  (g.mid.or (g.low.or (g.high.or g.full)))

/-- Geometry selection of `getRunsForBounds`: take the tier for the zoom;
fall back down the chain only when that tier is missing or has zero
coordinates. -/
def selectGeom (g : Geoms) (zoom : ℚ) : Option Geom :=
  match tierGet g (getZoomLevel zoom) with
  | none => fallbackChain g
  | some geom =>
    if geom.coordinates.length = 0 then fallbackChain g else some geom

/-- An emitted feature: geometry plus the `{id, zoom, zoomLevel, ...metadata}`
properties. -/
structure Feature where
  geometry : Geom
  id : Nat
  zoom : ℚ
  zoomLevel : Tier
  metadata : Metadata
deriving DecidableEq, Repr

/-- A `FeatureCollection`. -/
structure FeatureCollection where
  features : List Feature
deriving DecidableEq, Repr

/-- The per-entry body of `getRunsForBounds`'s loop: bbox pre-filter, run
lookup, tier selection with fallback, and the `length > 1` validity check. -/
def featureFor (st : SIState) (bbox : Bbox) (zoom : ℚ) (e : IdxEntry) : Option Feature :=
  if bboxIntersects e.bbox bbox then
    match st.runsData.lookup e.id with
    | some rd =>
      match selectGeom rd.geoms zoom with
      | some geom =>
        if 1 < geom.coordinates.length then
          some ⟨geom, e.id, zoom, getZoomLevel zoom, rd.metadata⟩
        else none
      | none => none
    | none => none
  else none

/-- `getRunsForBounds(minLat, minLng, maxLat, maxLng, zoom)`. -/
def getRunsForBounds (st : SIState) (minLat minLng maxLat maxLng zoom : ℚ) :
    FeatureCollection :=
  if st.loaded then
    ⟨st.spatialIndex.filterMap (featureFor st ⟨minLng, minLat, maxLng, maxLat⟩ zoom)⟩
  else ⟨[]⟩

/-- The ids of a feature collection's features. -/
def fcIds (fc : FeatureCollection) : List Nat :=
  fc.features.map Feature.id

/-- The edge list walked by `pointInPolygon`: pairs `(polygon[j], polygon[i])`
for `i = 0..n-1` with `j = i-1` and `j = n-1` initially, i.e. the previous
point paired with the current one, wrapping last→first. -/
def pipPairs (poly : List Pt) : List (Pt × Pt) :=
  match poly with
  | [] => []
  | p :: _ => List.zip (poly.getLastD p :: poly) poly

/-- The per-edge crossing test of `pointInPolygon` (edge given as
`(pj, pi)`). -/
def pipCross (pt : Pt) (e : Pt × Pt) : Bool :=
  let pj := e.1
  let pi := e.2
  decide ((pi.y > pt.y) ≠ (pj.y > pt.y)) &&
    decide (pt.x < (pj.x - pi.x) * (pt.y - pi.y) / (pj.y - pi.y) + pi.x)

/-- `pointInPolygon(point, polygon)`: even-odd ray casting, toggling `inside`
on each crossing edge. -/
def pointInPolygon (pt : Pt) (poly : List Pt) : Bool :=
  (pipPairs poly).foldl (fun inside e => if pipCross pt e then !inside else inside) false

/-- `orientation(a, b, c)` from `segmentsIntersect`. -/
def orientation (a b c : Pt) : ℚ :=
  (b.y - a.y) * (c.x - b.x) - (b.x - a.x) * (c.y - b.y)

/-- `onSegment(a, b, c)` from `segmentsIntersect`: is `b` inside the bounding
box of `a` and `c`. -/
def onSegment (a b c : Pt) : Bool :=
  decide (min a.x c.x ≤ b.x) && decide (b.x ≤ max a.x c.x) &&
    decide (min a.y c.y ≤ b.y) && decide (b.y ≤ max a.y c.y)

/-- `segmentsIntersect(p1, p2, p3, p4)`. -/
def segmentsIntersect (p1 p2 p3 p4 : Pt) : Bool :=
  let o1 := orientation p1 p2 p3
  let o2 := orientation p1 p2 p4
  let o3 := orientation p3 p4 p1
  let o4 := orientation p3 p4 p2
  if o1 * o2 < 0 ∧ o3 * o4 < 0 then true
  else if o1 = 0 ∧ onSegment p1 p3 p2 = true then true
  else if o2 = 0 ∧ onSegment p1 p4 p2 = true then true
  else if o3 = 0 ∧ onSegment p3 p1 p4 = true then true
  else if o4 = 0 ∧ onSegment p3 p2 p4 = true then true
  else false

/-- The consecutive pairs `(l[i-1], l[i])` walked by `lineIntersectsPolygon`
on both the line and the polygon. -/
def segPairs (l : List Pt) : List (Pt × Pt) :=
  List.zip l l.tail

/-- `lineIntersectsPolygon(lineCoords, polygonCoords)`. -/
def lineIntersectsPolygon (lineCoords polygonCoords : List Pt) : Bool :=
  (segPairs lineCoords).any fun a =>
    (segPairs polygonCoords).any fun b => segmentsIntersect a.1 a.2 b.1 b.2

/-- The four corners of a bounding box in the order `getRunsInPolygon` checks
them. -/
def bboxCorners (b : Bbox) : List Pt :=
  [⟨b.minLng, b.minLat⟩, ⟨b.maxLng, b.minLat⟩, ⟨b.maxLng, b.maxLat⟩, ⟨b.minLng, b.maxLat⟩]

/-- The `intersects` computation of `getRunsInPolygon` for one candidate:
bbox center in polygon, else a bbox corner in polygon, else a vertex of the
`full || high || mid || low` geometry in polygon, else a segment crossing. -/
def polygonIntersectTest (e : IdxEntry) (rd : RunData) (poly : List Pt) : Bool :=
  let runCenter : Pt := ⟨(e.bbox.minLng + e.bbox.maxLng) / 2, (e.bbox.minLat + e.bbox.maxLat) / 2⟩
  if pointInPolygon runCenter poly then true
  else if (bboxCorners e.bbox).any (fun c => pointInPolygon c poly) then true
  else
    match rd.geoms.full.or (rd.geoms.high.or (rd.geoms.mid.or rd.geoms.low)) with
    | some geom =>
      if geom.coordinates.any (fun c => pointInPolygon c poly) then true
      else lineIntersectsPolygon geom.coordinates poly
    | none => false

/-- An element of `getRunsInPolygon`'s result list. -/
structure RunSummary where
  id : Nat
  metadata : Metadata
  bbox : Bbox
deriving DecidableEq, Repr

/-- `getRunsInPolygon(polygonCoords)`. -/
def getRunsInPolygon (st : SIState) (polygonCoords : List Pt) : List RunSummary :=
  if st.loaded then
    let polyBbox := getPolygonBbox polygonCoords
    st.spatialIndex.filterMap fun e =>
      if bboxIntersects e.bbox polyBbox then
        match st.runsData.lookup e.id with
        | some rd =>
          if polygonIntersectTest e rd polygonCoords then
            some ⟨e.id, rd.metadata, rd.bbox⟩
          else none
        | none => none
      else none
  else []

namespace M12

/-- `getZoomLevel(zoom)` in the three-tier variant of the class: zoom≥13 →
high, ≥10 → mid, else low (no `full` case). -/
def getZoomLevel (zoom : ℚ) : Tier :=
  if zoom ≥ 13 then .high
  else if zoom ≥ 10 then .mid
  else .low

/-- The fallback chain `geoms['mid'] || geoms['low'] || geoms['high']` of the
variant's `filterRunsByIds` (no `full` at the end). -/
def fallbackChain (g : Geoms) : Option Geom :=
  g.mid.or (g.low.or g.high)

/-- Geometry selection of the variant's `filterRunsByIds`. -/
def selectGeom (g : Geoms) (zoom : ℚ) : Option Geom :=
  match tierGet g (getZoomLevel zoom) with
  | none => fallbackChain g
  | some geom =>
    if geom.coordinates.length = 0 then fallbackChain g else some geom

/-- The per-id body of the variant's `filterRunsByIds` loop. -/
def featureFor (st : SIState) (bbox : Bbox) (zoom : ℚ) (runId : Nat) : Option Feature :=
  match st.runsData.lookup runId with
  | some rd =>
    if bboxIntersects rd.bbox bbox then
      match selectGeom rd.geoms zoom with
      | some geom =>
        if 1 < geom.coordinates.length then
          some ⟨geom, runId, zoom, getZoomLevel zoom, rd.metadata⟩
        else none
      | none => none
    else none
  | none => none

/-- `filterRunsByIds(runIds, minLat, minLng, maxLat, maxLng, zoom)` of the
three-tier variant. -/
def filterRunsByIds (st : SIState) (runIds : List Nat)
    (minLat minLng maxLat maxLng zoom : ℚ) : FeatureCollection :=
  if st.loaded then
    ⟨runIds.filterMap (featureFor st ⟨minLng, minLat, maxLng, maxLat⟩ zoom)⟩
  else ⟨[]⟩

end M12

namespace Cache

/-- A `maplibregl.LngLatBounds`. -/
structure LLBounds where
  south : ℚ
  west : ℚ
  north : ℚ
  east : ℚ
deriving DecidableEq, Repr

/-- `withinBounds(outer, inner)`: is `inner` contained in `outer` (all four
comparisons inclusive). -/
def withinBounds (outer inner : LLBounds) : Bool :=
  decide (inner.south ≥ outer.south) && decide (inner.north ≤ outer.north) &&
    decide (inner.west ≥ outer.west) && decide (inner.east ≤ outer.east)

/-- One entry of the `caches` table: stored under its integer zoom, holding
the margin-expanded fetched bounds and the fetched feature data. -/
structure CacheEntry where
  zoom : ℚ
  bounds : LLBounds
  data : FeatureCollection
deriving DecidableEq, Repr

/-- `getCached(view, zoom)`: scan the cache levels in descending zoom order
and return the data of the first entry with `entryZoom ≥ zoom` whose bounds
contain the viewport. -/
def getCached (caches : List CacheEntry) (view : LLBounds) (zoom : ℚ) :
    Option FeatureCollection :=
  ((caches.insertionSort fun a b => a.zoom ≥ b.zoom).find? fun e =>
      decide (e.zoom ≥ zoom) && withinBounds e.bounds view).map CacheEntry.data

/-- The consistency invariant `fetchAndUpdate` maintains for each stored
entry: its data is the viewport query over its fetched bounds at its zoom,
against the store state `st`. -/
def entryConsistent (st : SIState) (e : CacheEntry) : Prop :=
  e.data = getRunsForBounds st e.bounds.south e.bounds.west e.bounds.north e.bounds.east e.zoom

end Cache

/-! ### Specification-side notions used to state the claims -/

/-- Index/store consistency (invariant I1): the ids present in the spatial
index are exactly the ids the run table has an entry for. -/
def consistentState (st : SIState) : Prop :=
  ∀ id : Nat, (∃ e ∈ st.spatialIndex, e.id = id) ↔ (st.runsData.lookup id).isSome = true

/-- Apply a sequence of `addRun` calls. -/
def applyAddRuns (st : SIState) (ops : List (List Pt × Metadata)) : SIState :=
  ops.foldl (fun s op => (addRun s op.1 op.2).1) st

/-- A run record is well formed when every tier is present with at least two
points — the data-model invariant for activities built from tracks of ≥ 2
points. -/
def wfRun (rd : RunData) : Prop :=
  ∀ t : Tier, ∃ g, tierGet rd.geoms t = some g ∧ 2 ≤ g.coordinates.length

/-- All runs in the store are well formed. -/
def wfStore (st : SIState) : Prop :=
  ∀ id rd, st.runsData.lookup id = some rd → wfRun rd

/-- Squared planar distance. -/
def dist2 (a b : Pt) : ℚ :=
  (a.x - b.x) ^ 2 + (a.y - b.y) ^ 2

/-- Rank of a tier, coarsest lowest: low < mid < high < full. -/
def tierRank : Tier → Nat
  | .low => 0
  | .mid => 1
  | .high => 2
  | .full => 3

/-- Closed-rectangle overlap of two bounding boxes. -/
def bboxClosedOverlap (b1 b2 : Bbox) : Prop :=
  b1.minLng ≤ b2.maxLng ∧ b2.minLng ≤ b1.maxLng ∧
    b1.minLat ≤ b2.maxLat ∧ b2.minLat ≤ b1.maxLat

/-- Two boxes touch along an edge: they overlap as closed rectangles and share
a boundary coordinate on some side. -/
def bboxTouch (b1 b2 : Bbox) : Prop :=
  bboxClosedOverlap b1 b2 ∧
    (b1.maxLng = b2.minLng ∨ b2.maxLng = b1.minLng ∨
      b1.maxLat = b2.minLat ∨ b2.maxLat = b1.minLat)

/-- A point of a bounding box (closed membership). -/
def inBbox (b : Bbox) (p : Pt) : Prop :=
  b.minLng ≤ p.x ∧ p.x ≤ b.maxLng ∧ b.minLat ≤ p.y ∧ p.y ≤ b.maxLat

/-- Membership of `q` in the closed segment from `a` to `b`. -/
def Seg (a b q : Pt) : Prop :=
  ∃ t : ℚ, 0 ≤ t ∧ t ≤ 1 ∧ q.x = a.x + t * (b.x - a.x) ∧ q.y = a.y + t * (b.y - a.y)

/-- Affine interpolation between two points. -/
def lerp (a b : Pt) (t : ℚ) : Pt :=
  ⟨a.x + t * (b.x - a.x), a.y + t * (b.y - a.y)⟩

/-- The parameter of the orthogonal projection of `r` on the line through `a`
and `b` (equals the line parameter of `r` itself when `r` is on the line). -/
def tau (a b r : Pt) : ℚ :=
  ((r.x - a.x) * (b.x - a.x) + (r.y - a.y) * (b.y - a.y)) /
    ((b.x - a.x) ^ 2 + (b.y - a.y) ^ 2)

/-- Counterclockwise cross product `(b - a) × (c - a)` (note
`orientation a b c = -ccw a b c`). -/
def ccw (a b c : Pt) : ℚ :=
  (b.x - a.x) * (c.y - a.y) - (b.y - a.y) * (c.x - a.x)

/-- Cyclic successor on `Fin n`. -/
def finNext {n : ℕ} (i : Fin n) : Fin n :=
  ⟨(i.val + 1) % n, Nat.mod_lt _ (Nat.zero_lt_of_lt i.isLt)⟩

/-- A vertex ring in strictly convex position, counterclockwise: every vertex
not on a given edge lies strictly to the left of it. -/
def SCC {n : ℕ} (V : Fin n → Pt) : Prop :=
  ∀ i j : Fin n, j ≠ i → j ≠ finNext i → 0 < ccw (V i) (V (finNext i)) (V j)

/-- Closed containment for a counterclockwise convex ring: on or left of every
edge. -/
def InCCW {n : ℕ} (V : Fin n → Pt) (q : Pt) : Prop :=
  ∀ i : Fin n, 0 ≤ ccw (V i) (V (finNext i)) q

/-- Strict containment for a counterclockwise convex ring. -/
def StrictInCCW {n : ℕ} (V : Fin n → Pt) (q : Pt) : Prop :=
  ∀ i : Fin n, 0 < ccw (V i) (V (finNext i)) q

/-- The vertex function of a ring list. -/
def ringV (ring : List Pt) : Fin ring.length → Pt :=
  fun i => ring.get i

/-- A polygon ring list in strictly convex counterclockwise position. -/
def StrictConvexRing (ring : List Pt) : Prop :=
  SCC (ringV ring)

/-- A polygon ring list in strictly convex clockwise position. -/
def StrictConvexRingCW (ring : List Pt) : Prop :=
  ∀ i j : Fin ring.length, j ≠ i → j ≠ finNext i →
    ccw (ringV ring i) (ringV ring (finNext i)) (ringV ring j) < 0

/-- Closed containment in a clockwise convex ring. -/
def InCW (ring : List Pt) (q : Pt) : Prop :=
  ∀ i : Fin ring.length, ccw (ringV ring i) (ringV ring (finNext i)) q ≤ 0

/-- The closed coordinate list of a ring: first point repeated at the end, as
the lasso polygons the queries receive are written. -/
def closedRing (ring : List Pt) : List Pt :=
  ring ++ ring.take 1

/-! ### Concrete instances used by counterexamples and witnesses -/

/-- Tier table whose `full` tier has exactly one point while `mid` has two:
`full` is selected at zoom ≥ 15, is degenerate (< 2 points), yet has nonzero
length so the source's fallback does not trigger. -/
def c2Geoms : Geoms :=
  ⟨some ⟨[⟨0, 0⟩]⟩, some ⟨[⟨0, 0⟩]⟩, some ⟨[⟨0, 0⟩, ⟨1, 1⟩]⟩, some ⟨[⟨0, 0⟩]⟩⟩

/-- A loaded store holding the single run `3` with `c2Geoms`. -/
def c2State : SIState :=
  ⟨true, [(3, ⟨c2Geoms, ⟨0, 0, 1, 1⟩, "m"⟩)], [⟨3, ⟨0, 0, 1, 1⟩⟩], [], 4⟩

/-- Tier table whose `full` tier is present but empty and whose `mid` tier has
two points (used to exercise the fallback that does trigger). -/
def cwGeoms : Geoms :=
  ⟨some ⟨[]⟩, some ⟨[]⟩, some ⟨[⟨0, 0⟩, ⟨1, 1⟩]⟩, some ⟨[]⟩⟩

/-- A loaded store holding the single run `4` with `cwGeoms`. -/
def cwState : SIState :=
  ⟨true, [(4, ⟨cwGeoms, ⟨0, 0, 1, 1⟩, "m"⟩)], [⟨4, ⟨0, 0, 1, 1⟩⟩], [], 5⟩

/-- A five-point diagonal track. -/
def wTrack : List Pt :=
  [⟨0, 0⟩, ⟨1, 1⟩, ⟨2, 2⟩, ⟨3, 3⟩, ⟨4, 4⟩]

/-- A loaded store holding the single run `7` built from `wTrack` by
`addRun`'s geometry builder. -/
def wState : SIState :=
  ⟨true, [(7, ⟨buildGeoms wTrack, getPolygonBbox wTrack, "m"⟩)],
    [⟨7, getPolygonBbox wTrack⟩], [], 8⟩

/-- A two-point track lying on the right edge `x = 4` of `wSquare`. -/
def wEdgeTrack : List Pt :=
  [⟨4, 1⟩, ⟨4, 2⟩]

/-- A loaded store holding the single run `9` built from `wEdgeTrack`. -/
def wEdgeState : SIState :=
  ⟨true, [(9, ⟨buildGeoms wEdgeTrack, getPolygonBbox wEdgeTrack, "m"⟩)],
    [⟨9, getPolygonBbox wEdgeTrack⟩], [], 10⟩

/-- A counterclockwise square ring with corners `(0,0)`, `(4,0)`, `(4,4)`,
`(0,4)`. -/
def wSquare : List Pt :=
  [⟨0, 0⟩, ⟨4, 0⟩, ⟨4, 4⟩, ⟨0, 4⟩]

/-- The cache entry of the C4 counterexample: stored at zoom 13 over bounds
`[0,0]–[10,10]`. -/
def c4Entry : Cache.CacheEntry :=
  ⟨13, ⟨0, 0, 10, 10⟩, ⟨[]⟩⟩

/-- The C4 counterexample viewport, well inside `c4Entry.bounds`. -/
def c4View : Cache.LLBounds :=
  ⟨1, 1, 2, 2⟩

/-! ## Index/store consistency (C8) -/

theorem lookup_cons_isSome {id a : Nat} {rd : RunData} {l : List (Nat × RunData)} :
    ((((a, rd)) :: l).lookup id).isSome = true ↔ id = a ∨ (l.lookup id).isSome = true := by
  by_cases h : id = a
  · subst h
    simp [List.lookup]
  · have hb : (id == a) = false := beq_eq_false_iff_ne.mpr h
    simp [List.lookup, hb, h]

theorem consistent_of_register {idx : List IdxEntry} {rda : List (Nat × RunData)}
    (h : ∀ id, (∃ e ∈ idx, e.id = id) ↔ (rda.lookup id).isSome = true)
    (nid : Nat) (rd : RunData) (bb : Bbox) :
    ∀ id, (∃ e ∈ idx ++ [⟨nid, bb⟩], e.id = id) ↔
      ((((nid, rd)) :: rda).lookup id).isSome = true := by
  intro id
  rw [lookup_cons_isSome]
  constructor
  · rintro ⟨e, he, rfl⟩
    rcases List.mem_append.mp he with h1 | h1
    · exact Or.inr ((h e.id).mp ⟨e, h1, rfl⟩)
    · simp only [List.mem_singleton] at h1
      subst h1
      exact Or.inl rfl
  · rintro (h1 | hs)
    · exact ⟨⟨nid, bb⟩, List.mem_append.mpr (Or.inr (List.mem_singleton.mpr rfl)), h1.symm⟩
    · obtain ⟨e, he, hid⟩ := (h id).mpr hs
      exact ⟨e, List.mem_append.mpr (Or.inl he), hid⟩

theorem consistent_loadOne {st : SIState} (h : consistentState st) (run : Run) :
    consistentState (loadOne st run) :=
  consistent_of_register h run.id ⟨run.geoms, run.bbox, run.metadata⟩ run.bbox

theorem consistent_addRun {st : SIState} (h : consistentState st)
    (coords : List Pt) (m : Metadata) :
    consistentState (addRun st coords m).1 :=
  consistent_of_register h st.nextId
    ⟨buildGeoms coords, getPolygonBbox coords, m⟩ (getPolygonBbox coords)

theorem consistent_loadUserRuns {st : SIState} (h : consistentState st)
    (stored : List Run) :
    consistentState (loadUserRuns st stored) := by
  induction stored generalizing st with
  | nil => exact h
  | cons r rs ih => exact ih (consistent_loadOne h r)

theorem consistent_applyAddRuns {st : SIState} (h : consistentState st)
    (ops : List (List Pt × Metadata)) :
    consistentState (applyAddRuns st ops) := by
  induction ops generalizing st with
  | nil => exact h
  | cons op rest ih => exact ih (consistent_addRun h op.1 op.2)

/-- C8: after loading any list of stored runs and then performing any sequence
of `addRun` inserts starting from a consistent state, the set of ids in the
spatial index still equals the set of ids the run table has entries for. -/
theorem c8_index_store_consistency (st : SIState) (stored : List Run)
    (ops : List (List Pt × Metadata)) (h : consistentState st) :
    consistentState (applyAddRuns (loadUserRuns st stored) ops) :=
  consistent_applyAddRuns (consistent_loadUserRuns h stored) ops

/-- Witness for C8: a concrete empty session, one stored run, one upload. -/
theorem c8_index_store_consistency_witness :
    consistentState (applyAddRuns
      (loadUserRuns ⟨true, [], [], [], 1000000⟩ [⟨42, buildGeoms wTrack, getPolygonBbox wTrack, "m"⟩])
      [(wEdgeTrack, "u")]) :=
  c8_index_store_consistency ⟨true, [], [], [], 1000000⟩ _ _
    (by intro id; simp [List.lookup])

/-! ## Tier point-count monotonicity (C9) -/

theorem farB_iff {t : ℚ} {a c : Pt} : farB t a c = true ↔ t * t < dist2 c a := by
  simp [farB, dist2]

theorem farB_false_iff {t : ℚ} {a c : Pt} : farB t a c = false ↔ dist2 c a ≤ t * t := by
  rw [← Bool.not_eq_true, farB_iff]
  exact not_lt

theorem dist2_self (a : Pt) : dist2 a a = 0 := by
  simp [dist2]

theorem dist2_double_bound (a b c : Pt) : dist2 a c ≤ 2 * dist2 a b + 2 * dist2 b c := by
  simp only [dist2]
  nlinarith [sq_nonneg ((a.x - b.x) - (b.x - c.x)), sq_nonneg ((a.y - b.y) - (b.y - c.y))]

theorem keepAux_length_le (t : ℚ) (a : Pt) (l : List Pt) :
    (keepAux t a l).length ≤ l.length := by
  induction l generalizing a with
  | nil => simp [keepAux]
  | cons c cs ih =>
    by_cases h : farB t a c = true
    · simpa [keepAux, h] using ih c
    · simp only [keepAux, h, Bool.false_eq_true, if_false, List.length_cons]
      exact Nat.le_succ_of_le (ih a)

theorem keepAux_count_mono (t1 t2 : ℚ) (h1 : 0 ≤ t1) (h2 : 2 * t1 ≤ t2) (l : List Pt) :
    (∀ a1 a2 : Pt, dist2 a2 a1 ≤ t1 * t1 →
      (keepAux t2 a2 l).length ≤ (keepAux t1 a1 l).length) ∧
    (∀ a1 a2 : Pt, (keepAux t2 a2 l).length ≤ (keepAux t1 a1 l).length + 1) := by
  induction l with
  | nil => simp [keepAux]
  | cons c cs ih =>
    obtain ⟨ihA, ihB⟩ := ih
    constructor
    · intro a1 a2 hd
      by_cases h2k : farB t2 a2 c = true
      · have h1k : farB t1 a1 c = true := by
          by_contra hno
          have hle : dist2 c a1 ≤ t1 * t1 := farB_false_iff.mp (Bool.not_eq_true _ ▸ hno)
          have hfar : t2 * t2 < dist2 c a2 := farB_iff.mp h2k
          have htri : dist2 c a2 ≤ 2 * dist2 c a1 + 2 * dist2 a1 a2 := dist2_double_bound c a1 a2
          have hsymm : dist2 a1 a2 = dist2 a2 a1 := by simp [dist2]; ring
          nlinarith
        simp only [keepAux, h2k, h1k, if_true, List.length_cons]
        exact Nat.succ_le_succ (ihA c c (by simp [dist2_self]; positivity))
      · by_cases h1k : farB t1 a1 c = true
        · simp only [keepAux, h2k, h1k, Bool.false_eq_true, if_false, if_true, List.length_cons]
          exact ihB c a2
        · simp only [keepAux, h2k, h1k, Bool.false_eq_true, if_false]
          exact ihA a1 a2 hd
    · intro a1 a2
      by_cases h2k : farB t2 a2 c = true <;> by_cases h1k : farB t1 a1 c = true
      · simp only [keepAux, h2k, h1k, if_true, List.length_cons]
        exact Nat.succ_le_succ (Nat.le_succ_of_le (ihA c c (by simp [dist2_self]; positivity)))
      · have hle : dist2 c a1 ≤ t1 * t1 := farB_false_iff.mp (Bool.not_eq_true _ ▸ h1k)
        simp only [keepAux, h2k, h1k, Bool.false_eq_true, if_false, if_true, List.length_cons]
        exact Nat.succ_le_succ (ihA a1 c hle)
      · simp only [keepAux, h2k, h1k, Bool.false_eq_true, if_false, if_true, List.length_cons]
        exact Nat.le_succ_of_le (ihB c a2)
      · simp only [keepAux, h2k, h1k, Bool.false_eq_true, if_false]
        exact ihB a1 a2

theorem simplify_cons_eq (c : Pt) (rest : List Pt) (t : ℚ)
    (h : ¬(c :: rest).length ≤ 2) :
    simplify (c :: rest) t = c :: (keepAux t c rest.dropLast ++ [rest.getLastD c]) := by
  unfold simplify
  rw [if_neg h]

theorem simplify_length_le (coords : List Pt) (t : ℚ) :
    (simplify coords t).length ≤ coords.length := by
  by_cases h : coords.length ≤ 2
  · simp [simplify, h]
  · cases coords with
    | nil => simp at h
    | cons c rest =>
      rw [simplify_cons_eq c rest t h]
      have hk := keepAux_length_le t c rest.dropLast
      have hlen : rest.dropLast.length = rest.length - 1 := List.length_dropLast rest
      have hpos : 2 ≤ rest.length := by
        simp only [List.length_cons] at h
        omega
      simp only [List.length_cons, List.length_append, List.length_singleton,
        List.length_nil]
      omega

theorem simplify_length_mono (coords : List Pt) (t1 t2 : ℚ)
    (h1 : 0 ≤ t1) (h2 : 2 * t1 ≤ t2) :
    (simplify coords t2).length ≤ (simplify coords t1).length := by
  by_cases h : coords.length ≤ 2
  · simp [simplify, h]
  · cases coords with
    | nil => simp at h
    | cons c rest =>
      rw [simplify_cons_eq c rest t2 h, simplify_cons_eq c rest t1 h]
      have := (keepAux_count_mono t1 t2 h1 h2 rest.dropLast).1 c c
        (by simp only [dist2_self]; positivity)
      simp only [List.length_cons, List.length_append, List.length_singleton,
        List.length_nil]
      omega

theorem two_le_simplify_length (coords : List Pt) (t : ℚ) (h : 2 ≤ coords.length) :
    2 ≤ (simplify coords t).length := by
  by_cases hl : coords.length ≤ 2
  · simpa [simplify, hl] using h
  · cases coords with
    | nil => simp at hl
    | cons c rest =>
      rw [simplify_cons_eq c rest t hl]
      simp only [List.length_cons, List.length_append, List.length_singleton,
        List.length_nil]
      omega

/-- C9: for a track of at least two points, `addRun`'s geometry builder gives
`full` exactly the input coordinates, and the tier point counts are
monotonically non-increasing from full to high (tolerance 0.00005) to mid
(0.0003) to low (0.0009). -/
theorem c9_tier_point_count_monotone (coords : List Pt) (h : 2 ≤ coords.length) :
    (buildGeoms coords).full = some ⟨coords⟩ ∧
    (simplify coords 0.00005).length ≤ coords.length ∧
    (simplify coords 0.0003).length ≤ (simplify coords 0.00005).length ∧
    (simplify coords 0.0009).length ≤ (simplify coords 0.0003).length := by
  refine ⟨rfl, simplify_length_le _ _, ?_, ?_⟩
  · exact simplify_length_mono _ _ _ (by norm_num) (by norm_num)
  · exact simplify_length_mono _ _ _ (by norm_num) (by norm_num)

/-- Witness for C9 at the concrete five-point track. -/
theorem c9_tier_point_count_monotone_witness :
    2 ≤ wTrack.length ∧
    ((buildGeoms wTrack).full = some ⟨wTrack⟩ ∧
      (simplify wTrack 0.00005).length ≤ wTrack.length ∧
      (simplify wTrack 0.0003).length ≤ (simplify wTrack 0.00005).length ∧
      (simplify wTrack 0.0009).length ≤ (simplify wTrack 0.0003).length) :=
  ⟨by decide, c9_tier_point_count_monotone wTrack (by decide)⟩

/-! ## Output features have at least two points (C10) -/

theorem featureFor_some_two_le {st : SIState} {bbox : Bbox} {zoom : ℚ}
    {e : IdxEntry} {f : Feature} (h : featureFor st bbox zoom e = some f) :
    2 ≤ f.geometry.coordinates.length := by
  unfold featureFor at h
  split at h
  · split at h
    · split at h
      · split at h
        · rename_i hlen
          obtain rfl := Option.some.inj h
          exact hlen
        · exact absurd h (by simp)
      · exact absurd h (by simp)
    · exact absurd h (by simp)
  · exact absurd h (by simp)

theorem m12_featureFor_some_two_le {st : SIState} {bbox : Bbox} {zoom : ℚ}
    {runId : Nat} {f : Feature} (h : M12.featureFor st bbox zoom runId = some f) :
    2 ≤ f.geometry.coordinates.length := by
  unfold M12.featureFor at h
  split at h
  · split at h
    · split at h
      · split at h
        · rename_i hlen
          obtain rfl := Option.some.inj h
          exact hlen
        · exact absurd h (by simp)
      · exact absurd h (by simp)
    · exact absurd h (by simp)
  · exact absurd h (by simp)

/-- C10: every feature emitted by the viewport query and by the id-filtered
query has at least two coordinate points; a candidate whose selected
(post-fallback) geometry has fewer than two points contributes no feature
(and no error) to the collection. -/
theorem c10_features_min_two_points :
    (∀ (st : SIState) (minLat minLng maxLat maxLng zoom : ℚ) (f : Feature),
      f ∈ (getRunsForBounds st minLat minLng maxLat maxLng zoom).features →
        2 ≤ f.geometry.coordinates.length) ∧
    (∀ (st : SIState) (runIds : List Nat) (minLat minLng maxLat maxLng zoom : ℚ) (f : Feature),
      f ∈ (M12.filterRunsByIds st runIds minLat minLng maxLat maxLng zoom).features →
        2 ≤ f.geometry.coordinates.length) := by
  constructor
  · intro st minLat minLng maxLat maxLng zoom f hf
    unfold getRunsForBounds at hf
    split at hf
    · obtain ⟨e, _, he⟩ := List.mem_filterMap.mp hf
      exact featureFor_some_two_le he
    · simp at hf
  · intro st runIds minLat minLng maxLat maxLng zoom f hf
    unfold M12.filterRunsByIds at hf
    split at hf
    · obtain ⟨i, _, hi⟩ := List.mem_filterMap.mp hf
      exact m12_featureFor_some_two_le hi
    · simp at hf

/-- Witness for C10: a concrete emitted feature of each query. -/
theorem c10_features_min_two_points_witness :
    2 ≤ (Feature.mk ⟨wTrack⟩ 7 16 .full "m").geometry.coordinates.length ∧
    2 ≤ (Feature.mk ⟨wTrack⟩ 7 16 .high "m").geometry.coordinates.length :=
  ⟨c10_features_min_two_points.1 wState 0 0 4 4 16 _ (by
      norm_num [-List.length_eq_zero, getRunsForBounds, wState, featureFor, selectGeom,
        tierGet, getZoomLevel, bboxIntersects, buildGeoms, wTrack, getPolygonBbox,
        simplify, keepAux, farB, List.lookup]),
   c10_features_min_two_points.2 wState [7] 0 0 4 4 16 _ (by
      norm_num [-List.length_eq_zero, M12.filterRunsByIds, wState, M12.featureFor,
        M12.selectGeom, tierGet, M12.getZoomLevel, bboxIntersects, buildGeoms, wTrack,
        getPolygonBbox, simplify, keepAux, farB, List.lookup])⟩

/-! ## Viewport query completeness (C1) and the LOD fallback rule (C2) -/

theorem buildGeoms_wf (coords : List Pt) (h : 2 ≤ coords.length)
    (bb : Bbox) (m : Metadata) :
    wfRun ⟨buildGeoms coords, bb, m⟩ := by
  intro t
  cases t with
  | full => exact ⟨⟨coords⟩, rfl, h⟩
  | high => exact ⟨_, rfl, two_le_simplify_length coords _ h⟩
  | mid => exact ⟨_, rfl, two_le_simplify_length coords _ h⟩
  | low => exact ⟨_, rfl, two_le_simplify_length coords _ h⟩

theorem selectGeom_of_wf {rd : RunData} (hwf : wfRun rd) (zoom : ℚ) :
    ∃ g, selectGeom rd.geoms zoom = some g ∧ 2 ≤ g.coordinates.length := by
  obtain ⟨g, hg, hlen⟩ := hwf (getZoomLevel zoom)
  refine ⟨g, ?_, hlen⟩
  unfold selectGeom
  rw [hg]
  dsimp only
  rw [if_neg (by omega)]

theorem featureFor_mem {st : SIState} {e : IdxEntry} {rd : RunData} {g : Geom}
    {bbox : Bbox} {zoom : ℚ}
    (hint : bboxIntersects e.bbox bbox = true)
    (hrd : st.runsData.lookup e.id = some rd)
    (hsel : selectGeom rd.geoms zoom = some g)
    (hlen : 2 ≤ g.coordinates.length) :
    featureFor st bbox zoom e =
      some ⟨g, e.id, zoom, getZoomLevel zoom, rd.metadata⟩ := by
  unfold featureFor
  rw [hint, if_pos rfl, hrd]
  dsimp only
  rw [hsel]
  dsimp only
  rw [if_pos (by omega)]

theorem mem_getRunsForBounds {st : SIState} {e : IdxEntry} {rd : RunData}
    (hl : st.loaded = true) (he : e ∈ st.spatialIndex)
    (hrd : st.runsData.lookup e.id = some rd) (hwf : wfRun rd)
    (minLat minLng maxLat maxLng zoom : ℚ)
    (hint : bboxIntersects e.bbox ⟨minLng, minLat, maxLng, maxLat⟩ = true) :
    e.id ∈ fcIds (getRunsForBounds st minLat minLng maxLat maxLng zoom) := by
  obtain ⟨g, hsel, hlen⟩ := selectGeom_of_wf hwf zoom
  unfold getRunsForBounds
  rw [hl, if_pos rfl]
  unfold fcIds
  refine List.mem_map.mpr ⟨⟨g, e.id, zoom, getZoomLevel zoom, rd.metadata⟩, ?_, rfl⟩
  exact List.mem_filterMap.mpr ⟨e, he, featureFor_mem hint hrd hsel hlen⟩

/-- C1: an activity registered in the store and the index, with the
data-model's well-formed tier table (every tier ≥ 2 points, as `addRun`
produces for tracks of ≥ 2 points), whose bounding box intersects the query
box under the standard rectangle-overlap test, is returned by the viewport
query at every zoom. -/
theorem c1_viewport_query_completeness (st : SIState) (e : IdxEntry)
    (rd : RunData) (hl : st.loaded = true) (he : e ∈ st.spatialIndex)
    (hrd : st.runsData.lookup e.id = some rd) (hwf : wfRun rd)
    (minLat minLng maxLat maxLng zoom : ℚ)
    (hint : bboxIntersects e.bbox ⟨minLng, minLat, maxLng, maxLat⟩ = true) :
    e.id ∈ fcIds (getRunsForBounds st minLat minLng maxLat maxLng zoom) :=
  mem_getRunsForBounds hl he hrd hwf minLat minLng maxLat maxLng zoom hint

/-- Witness for C1 at a concrete one-run store and a low zoom. -/
theorem c1_viewport_query_completeness_witness :
    (⟨7, getPolygonBbox wTrack⟩ : IdxEntry).id ∈
      fcIds (getRunsForBounds wState 0 0 4 4 12) :=
  c1_viewport_query_completeness wState ⟨7, getPolygonBbox wTrack⟩
    ⟨buildGeoms wTrack, getPolygonBbox wTrack, "m"⟩ rfl
    (by norm_num [wState]) rfl
    (buildGeoms_wf wTrack (by norm_num [wTrack]) _ _)
    0 0 4 4 12
    (by norm_num [wTrack, getPolygonBbox, bboxIntersects])

/-- C2 is refuted at a concrete store: at zoom 16 the selected `full` tier has
exactly one point (fewer than 2), `mid` is the first tier with at least two
points in the claimed fallback order, and yet the viewport query emits no
feature at all for the activity (the source only falls back on *zero*-point
tiers, and its validity check then drops the one-point geometry). -/
theorem c2_counterexample :
    getZoomLevel 16 = Tier.full ∧
    tierGet c2Geoms (getZoomLevel 16) = some ⟨[⟨0, 0⟩]⟩ ∧
    (⟨3, ⟨0, 0, 1, 1⟩⟩ : IdxEntry) ∈ c2State.spatialIndex ∧
    c2State.runsData.lookup 3 = some ⟨c2Geoms, ⟨0, 0, 1, 1⟩, "m"⟩ ∧
    bboxIntersects ⟨0, 0, 1, 1⟩ ⟨0, 0, 1, 1⟩ = true ∧
    c2Geoms.mid = some ⟨[⟨0, 0⟩, ⟨1, 1⟩]⟩ ∧
    (getRunsForBounds c2State 0 0 1 1 16).features = [] := by
  refine ⟨by decide, by decide, by decide, by decide, by decide, by decide, ?_⟩
  decide

/-- C2 corrected: the fallback triggers only when the selected tier is missing
or has zero points; it then substitutes the first *present* tier in the order
mid, low, high, full, and the activity is emitted exactly when that geometry
has at least two points. -/
theorem c2_amended_fallback (st : SIState) (e : IdxEntry) (rd : RunData)
    (hl : st.loaded = true) (he : e ∈ st.spatialIndex)
    (hrd : st.runsData.lookup e.id = some rd)
    (minLat minLng maxLat maxLng zoom : ℚ)
    (hint : bboxIntersects e.bbox ⟨minLng, minLat, maxLng, maxLat⟩ = true)
    (hdeg : tierGet rd.geoms (getZoomLevel zoom) = none ∨
      ∃ g0, tierGet rd.geoms (getZoomLevel zoom) = some g0 ∧ g0.coordinates.length = 0)
    (geom : Geom) (hfb : fallbackChain rd.geoms = some geom)
    (hlen : 2 ≤ geom.coordinates.length) :
    (⟨geom, e.id, zoom, getZoomLevel zoom, rd.metadata⟩ : Feature)
      ∈ (getRunsForBounds st minLat minLng maxLat maxLng zoom).features := by
  have hsel : selectGeom rd.geoms zoom = some geom := by
    unfold selectGeom
    rcases hdeg with h0 | ⟨g0, hg0, h0⟩
    · rw [h0]
      exact hfb
    · rw [hg0]
      dsimp only
      rw [if_pos h0]
      exact hfb
  unfold getRunsForBounds
  rw [hl, if_pos rfl]
  exact List.mem_filterMap.mpr ⟨e, he, featureFor_mem hint hrd hsel hlen⟩

/-- Witness for the corrected fallback rule: a run whose `full` tier is
present but empty at zoom 16 is served its two-point `mid` tier. -/
theorem c2_amended_fallback_witness :
    (⟨⟨[⟨0, 0⟩, ⟨1, 1⟩]⟩, 4, 16, getZoomLevel 16, "m"⟩ : Feature)
      ∈ (getRunsForBounds cwState 0 0 1 1 16).features :=
  c2_amended_fallback cwState ⟨4, ⟨0, 0, 1, 1⟩⟩ ⟨cwGeoms, ⟨0, 0, 1, 1⟩, "m"⟩
    rfl (by decide) (by decide) 0 0 1 1 16 (by decide)
    (Or.inr ⟨⟨[]⟩, by decide, by decide⟩) ⟨[⟨0, 0⟩, ⟨1, 1⟩]⟩ (by decide) (by decide)

/-! ## Cache validity (C4) and cache correctness (C3) -/

namespace Cache

theorem accept_iff {zoom : ℚ} {view : LLBounds} {e : CacheEntry} :
    (decide (e.zoom ≥ zoom) && withinBounds e.bounds view) = true ↔
      zoom ≤ e.zoom ∧ withinBounds e.bounds view = true := by
  simp [ge_iff_le]

theorem getCached_eq_some {caches : List CacheEntry} {view : LLBounds} {zoom : ℚ}
    {d : FeatureCollection} (h : getCached caches view zoom = some d) :
    ∃ e ∈ caches, zoom ≤ e.zoom ∧ withinBounds e.bounds view = true ∧ d = e.data := by
  unfold getCached at h
  obtain ⟨a, ha, hd⟩ := Option.map_eq_some'.mp h
  have hmem := List.mem_of_find?_eq_some ha
  have hp0 := List.find?_some ha
  have hp := accept_iff.mp hp0
  exact ⟨a, (List.Perm.mem_iff (List.perm_insertionSort _ caches)).mp hmem,
    hp.1, hp.2, hd.symm⟩

theorem getCached_isSome_iff {caches : List CacheEntry} {view : LLBounds} {zoom : ℚ} :
    (getCached caches view zoom).isSome = true ↔
      ∃ e ∈ caches, zoom ≤ e.zoom ∧ withinBounds e.bounds view = true := by
  unfold getCached
  rw [Option.isSome_map', List.find?_isSome]
  constructor
  · rintro ⟨e, he, hp⟩
    exact ⟨e, (List.Perm.mem_iff (List.perm_insertionSort _ caches)).mp he,
      accept_iff.mp hp⟩
  · rintro ⟨e, he, h1, h2⟩
    exact ⟨e, (List.Perm.mem_iff (List.perm_insertionSort _ caches)).mpr he,
      accept_iff.mpr ⟨h1, h2⟩⟩

theorem withinBounds_iff {outer inner : LLBounds} :
    withinBounds outer inner = true ↔
      outer.south ≤ inner.south ∧ inner.north ≤ outer.north ∧
        outer.west ≤ inner.west ∧ inner.east ≤ outer.east := by
  simp [withinBounds, ge_iff_le, and_assoc]

end Cache

/-- C4 is refuted at a concrete cache: an entry stored at zoom 13 has the same
zoom tier as a zoom-14 query (both `high`) and its fetched bounds contain the
viewport, so the claimed tier-based rule accepts it, yet `getCached` serves
nothing because the source compares the raw integer zooms. -/
theorem c4_counterexample :
    getZoomLevel c4Entry.zoom = getZoomLevel 14 ∧
    tierRank (getZoomLevel 14) ≤ tierRank (getZoomLevel c4Entry.zoom) ∧
    Cache.withinBounds c4Entry.bounds c4View = true ∧
    Cache.getCached [c4Entry] c4View 14 = none := by
  refine ⟨by decide, by decide, by decide, ?_⟩
  decide

/-- C4 corrected: a cache entry is served for viewport `v` at zoom `z` iff its
*raw stored zoom* is at least `z` and `v` lies within its fetched bounds; the
data served always comes from such an entry.  (Raw-zoom comparison implies
the claimed tier comparison, but not conversely.) -/
theorem c4_amended_validity (caches : List Cache.CacheEntry)
    (view : Cache.LLBounds) (zoom : ℚ) :
    ((Cache.getCached caches view zoom).isSome = true ↔
      ∃ e ∈ caches, zoom ≤ e.zoom ∧ Cache.withinBounds e.bounds view = true) ∧
    ∀ d, Cache.getCached caches view zoom = some d →
      ∃ e ∈ caches, zoom ≤ e.zoom ∧ Cache.withinBounds e.bounds view = true ∧
        d = e.data :=
  ⟨Cache.getCached_isSome_iff, fun _ h => Cache.getCached_eq_some h⟩

/-- Witness for the corrected validity rule at a concrete cache. -/
theorem c4_amended_validity_witness :
    (Cache.getCached [c4Entry] c4View 13).isSome = true :=
  (c4_amended_validity [c4Entry] c4View 13).1.mpr
    ⟨c4Entry, by decide, by decide, by decide⟩

theorem bboxIntersects_iff {b1 b2 : Bbox} :
    bboxIntersects b1 b2 = true ↔
      b2.minLng ≤ b1.maxLng ∧ b1.minLng ≤ b2.maxLng ∧
        b2.minLat ≤ b1.maxLat ∧ b1.minLat ≤ b2.maxLat := by
  simp [bboxIntersects, not_or, not_lt, and_assoc]

theorem bboxIntersects_mono {rb : Bbox} {view fetched : Cache.LLBounds}
    (hw : Cache.withinBounds fetched view = true)
    (h : bboxIntersects rb ⟨view.west, view.south, view.east, view.north⟩ = true) :
    bboxIntersects rb ⟨fetched.west, fetched.south, fetched.east, fetched.north⟩ = true := by
  rw [Cache.withinBounds_iff] at hw
  rw [bboxIntersects_iff] at h ⊢
  obtain ⟨h1, h2, h3, h4⟩ := h
  obtain ⟨w1, w2, w3, w4⟩ := hw
  exact ⟨by linarith, by linarith, by linarith, by linarith⟩

theorem featureFor_some_spec {st : SIState} {bbox : Bbox} {zoom : ℚ}
    {e : IdxEntry} {f : Feature} (h : featureFor st bbox zoom e = some f) :
    f.id = e.id ∧ bboxIntersects e.bbox bbox = true ∧
      ∃ rd, st.runsData.lookup e.id = some rd := by
  unfold featureFor at h
  split at h
  · rename_i hint
    split at h
    · rename_i rd hrd
      split at h
      · split at h
        · obtain rfl := Option.some.inj h
          exact ⟨rfl, hint, rd, hrd⟩
        · exact absurd h (by simp)
      · exact absurd h (by simp)
    · exact absurd h (by simp)
  · exact absurd h (by simp)

theorem mem_fcIds_getRunsForBounds {st : SIState}
    {minLat minLng maxLat maxLng zoom : ℚ} {id : Nat}
    (h : id ∈ fcIds (getRunsForBounds st minLat minLng maxLat maxLng zoom)) :
    ∃ e ∈ st.spatialIndex, e.id = id ∧
      bboxIntersects e.bbox ⟨minLng, minLat, maxLng, maxLat⟩ = true ∧
      ∃ rd, st.runsData.lookup e.id = some rd := by
  unfold fcIds getRunsForBounds at h
  split at h
  · obtain ⟨f, hf, hfid⟩ := List.mem_map.mp h
    obtain ⟨e, he, hfe⟩ := List.mem_filterMap.mp hf
    obtain ⟨hid2, hint, rd, hrd⟩ := featureFor_some_spec hfe
    exact ⟨e, he, by rw [← hfid, hid2], hint, rd, hrd⟩
  · simp at h

/-- C3: whenever `getCached` serves a stored entry for a viewport at some
zoom, and each cache entry's data is the viewport query over its fetched
bounds at its stored zoom against the same (well-formed) store state, the
served result contains every id the fresh viewport query would return — it is
never strictly smaller. -/
theorem c3_cache_not_smaller (st : SIState) (caches : List Cache.CacheEntry)
    (view : Cache.LLBounds) (zoom : ℚ) (d : FeatureCollection)
    (hl : st.loaded = true) (hwf : wfStore st)
    (hcons : ∀ e ∈ caches, Cache.entryConsistent st e)
    (hserve : Cache.getCached caches view zoom = some d) :
    ∀ id, id ∈ fcIds (getRunsForBounds st view.south view.west view.north view.east zoom) →
      id ∈ fcIds d := by
  intro id hid
  obtain ⟨en, hen, hz, hwin, hd⟩ := Cache.getCached_eq_some hserve
  subst hd
  rw [hcons en hen]
  obtain ⟨e, he, heid, hint, rd, hrd⟩ := mem_fcIds_getRunsForBounds hid
  subst heid
  exact mem_getRunsForBounds hl he hrd (hwf _ _ hrd) _ _ _ _ _
    (bboxIntersects_mono hwin hint)

theorem wState_wf : wfStore wState := by
  intro id rd h
  simp only [wState, List.lookup] at h
  split at h
  · obtain rfl := Option.some.inj h
    exact buildGeoms_wf wTrack (by norm_num [wTrack]) _ _
  · exact absurd h (by simp)

/-- Witness for C3: a concrete cache entry fetched over `[0,0]–[10,10]` at
zoom 12 serves the id that a fresh query over the smaller viewport finds. -/
theorem c3_cache_not_smaller_witness :
    7 ∈ fcIds (getRunsForBounds wState 0 0 10 10 12) :=
  c3_cache_not_smaller wState
    [⟨12, ⟨0, 0, 10, 10⟩, getRunsForBounds wState 0 0 10 10 12⟩]
    ⟨1, 1, 3, 3⟩ 12 (getRunsForBounds wState 0 0 10 10 12)
    rfl wState_wf
    (by
      intro e he
      rw [List.mem_singleton] at he
      subst he
      rfl)
    rfl 7
    (by
      norm_num [-List.length_eq_zero, fcIds, getRunsForBounds, wState, featureFor,
        selectGeom, tierGet, getZoomLevel, bboxIntersects, buildGeoms, wTrack,
        getPolygonBbox, simplify, keepAux, farB, List.lookup])

/-! ## Segment intersection (C7) -/

theorem seg_endpoint_left (a b : Pt) : Seg a b a :=
  ⟨0, le_refl 0, zero_le_one, by ring, by ring⟩

theorem seg_endpoint_right (a b : Pt) : Seg a b b :=
  ⟨1, zero_le_one, le_refl 1, by ring, by ring⟩

theorem seg_iff_lerp {a b q : Pt} :
    Seg a b q ↔ ∃ t, 0 ≤ t ∧ t ≤ 1 ∧ q = lerp a b t := by
  constructor
  · rintro ⟨t, h0, h1, hx, hy⟩
    exact ⟨t, h0, h1, by ext <;> assumption⟩
  · rintro ⟨t, h0, h1, rfl⟩
    exact ⟨t, h0, h1, rfl, rfl⟩

theorem lerp_zero (a b : Pt) : lerp a b 0 = a := by
  ext <;> simp [lerp]

theorem lerp_one (a b : Pt) : lerp a b 1 = b := by
  ext <;> (simp only [lerp]; ring)

theorem lerp_same (a : Pt) (t : ℚ) : lerp a a t = a := by
  ext <;> (simp only [lerp]; ring)

theorem orientation_lerp (p q a b : Pt) (t : ℚ) :
    orientation p q (lerp a b t) =
      (1 - t) * orientation p q a + t * orientation p q b := by
  simp only [orientation, lerp]
  ring

theorem orientation_self_left (a b : Pt) : orientation a b a = 0 := by
  simp only [orientation]
  ring

theorem orientation_self_right (a b : Pt) : orientation a b b = 0 := by
  simp only [orientation]
  ring

theorem orientation_degenerate (a c : Pt) : orientation a a c = 0 := by
  simp only [orientation]
  ring

theorem orientation_seg_zero {a b q : Pt} (h : Seg a b q) : orientation a b q = 0 := by
  obtain ⟨t, _, _, rfl⟩ := seg_iff_lerp.mp h
  rw [orientation_lerp, orientation_self_left, orientation_self_right]
  ring

theorem pt_sub_sq_pos {a b : Pt} (h : a ≠ b) :
    0 < (b.x - a.x) ^ 2 + (b.y - a.y) ^ 2 := by
  rcases eq_or_ne a.x b.x with hx | hx
  · have hy : a.y ≠ b.y := fun hy => h (by ext <;> assumption)
    have : b.y - a.y ≠ 0 := sub_ne_zero.mpr (Ne.symm hy)
    positivity
  · have : b.x - a.x ≠ 0 := sub_ne_zero.mpr (Ne.symm hx)
    positivity

theorem lerp_inj {a b : Pt} (hab : a ≠ b) {s t : ℚ} (h : lerp a b s = lerp a b t) :
    s = t := by
  have hx : s * (b.x - a.x) = t * (b.x - a.x) := by
    have := congrArg Pt.x h
    simp only [lerp] at this
    linarith
  have hy : s * (b.y - a.y) = t * (b.y - a.y) := by
    have := congrArg Pt.y h
    simp only [lerp] at this
    linarith
  have hpos := pt_sub_sq_pos hab
  have h2 : (s - t) * ((b.x - a.x) ^ 2 + (b.y - a.y) ^ 2) = 0 := by
    linear_combination (b.x - a.x) * hx + (b.y - a.y) * hy
  rcases mul_eq_zero.mp h2 with h | h
  · linarith
  · exact absurd h (ne_of_gt hpos)

theorem colinear_param {a b r : Pt} (hab : a ≠ b) (h : orientation a b r = 0) :
    r = lerp a b (tau a b r) := by
  have hpos := pt_sub_sq_pos hab
  have hD : (b.x - a.x) ^ 2 + (b.y - a.y) ^ 2 ≠ 0 := ne_of_gt hpos
  have hkey : (b.y - a.y) * (r.x - a.x) - (b.x - a.x) * (r.y - a.y) = 0 := by
    simp only [orientation] at h
    linarith [h]
  ext
  · show r.x = (lerp a b (tau a b r)).x
    simp only [lerp, tau]
    field_simp
    linear_combination (b.y - a.y) * hkey
  · show r.y = (lerp a b (tau a b r)).y
    simp only [lerp, tau]
    field_simp
    linear_combination (-(b.x - a.x)) * hkey

theorem onSegment_iff {a b c : Pt} :
    onSegment a b c = true ↔
      min a.x c.x ≤ b.x ∧ b.x ≤ max a.x c.x ∧ min a.y c.y ≤ b.y ∧ b.y ≤ max a.y c.y := by
  simp [onSegment, and_assoc]

theorem lerp_bounds_1d {u v t : ℚ} (h0 : 0 ≤ t) (h1 : t ≤ 1) :
    min u v ≤ u + t * (v - u) ∧ u + t * (v - u) ≤ max u v := by
  rcases le_total u v with h | h
  · rw [min_eq_left h, max_eq_right h]
    constructor <;> nlinarith
  · rw [min_eq_right h, max_eq_left h]
    constructor <;> nlinarith

theorem seg_bbox {a b q : Pt} (h : Seg a b q) : onSegment a q b = true := by
  obtain ⟨t, h0, h1, hx, hy⟩ := h
  rw [onSegment_iff, hx, hy]
  obtain ⟨hx1, hx2⟩ := lerp_bounds_1d (u := a.x) (v := b.x) h0 h1
  obtain ⟨hy1, hy2⟩ := lerp_bounds_1d (u := a.y) (v := b.y) h0 h1
  exact ⟨hx1, hx2, hy1, hy2⟩

theorem param_bounds_1d {u v q t : ℚ} (hne : u ≠ v) (hq : q = u + t * (v - u))
    (h1 : min u v ≤ q) (h2 : q ≤ max u v) : 0 ≤ t ∧ t ≤ 1 := by
  rcases lt_or_gt_of_ne hne with h | h
  · rw [min_eq_left h.le] at h1
    rw [max_eq_right h.le] at h2
    constructor <;> nlinarith
  · rw [min_eq_right h.le] at h1
    rw [max_eq_left h.le] at h2
    constructor <;> nlinarith

theorem seg_of_colinear_onSegment {a b r : Pt} (hcol : orientation a b r = 0)
    (hbox : onSegment a r b = true) : Seg a b r := by
  rw [onSegment_iff] at hbox
  obtain ⟨hx1, hx2, hy1, hy2⟩ := hbox
  by_cases hab : a = b
  · subst hab
    have hrx : r.x = a.x := le_antisymm (by simpa using hx2) (by simpa using hx1)
    have hry : r.y = a.y := le_antisymm (by simpa using hy2) (by simpa using hy1)
    exact ⟨0, le_refl 0, zero_le_one, by rw [hrx]; ring, by rw [hry]; ring⟩
  · have hr := colinear_param hab hcol
    have hrx : r.x = a.x + tau a b r * (b.x - a.x) := congrArg Pt.x hr
    have hry : r.y = a.y + tau a b r * (b.y - a.y) := congrArg Pt.y hr
    rcases eq_or_ne a.x b.x with hxeq | hxne
    · have hyne : a.y ≠ b.y := fun hy => hab (by ext <;> assumption)
      obtain ⟨ht0, ht1⟩ := param_bounds_1d hyne hry hy1 hy2
      exact ⟨tau a b r, ht0, ht1, hrx, hry⟩
    · obtain ⟨ht0, ht1⟩ := param_bounds_1d hxne hrx hx1 hx2
      exact ⟨tau a b r, ht0, ht1, hrx, hry⟩

theorem segmentsIntersect_conds (p1 p2 p3 p4 : Pt) :
    segmentsIntersect p1 p2 p3 p4 = true ↔
      (orientation p1 p2 p3 * orientation p1 p2 p4 < 0 ∧
        orientation p3 p4 p1 * orientation p3 p4 p2 < 0) ∨
      (orientation p1 p2 p3 = 0 ∧ onSegment p1 p3 p2 = true) ∨
      (orientation p1 p2 p4 = 0 ∧ onSegment p1 p4 p2 = true) ∨
      (orientation p3 p4 p1 = 0 ∧ onSegment p3 p1 p4 = true) ∨
      (orientation p3 p4 p2 = 0 ∧ onSegment p3 p2 p4 = true) := by
  have hrw : segmentsIntersect p1 p2 p3 p4 =
      (if orientation p1 p2 p3 * orientation p1 p2 p4 < 0 ∧
            orientation p3 p4 p1 * orientation p3 p4 p2 < 0 then true
        else if orientation p1 p2 p3 = 0 ∧ onSegment p1 p3 p2 = true then true
        else if orientation p1 p2 p4 = 0 ∧ onSegment p1 p4 p2 = true then true
        else if orientation p3 p4 p1 = 0 ∧ onSegment p3 p1 p4 = true then true
        else if orientation p3 p4 p2 = 0 ∧ onSegment p3 p2 p4 = true then true
        else false) := rfl
  rw [hrw]
  split_ifs with h1 h2 h3 h4 h5
  · simp only [true_iff]
    exact Or.inl h1
  · simp only [true_iff]
    exact Or.inr (Or.inl h2)
  · simp only [true_iff]
    exact Or.inr (Or.inr (Or.inl h3))
  · simp only [true_iff]
    exact Or.inr (Or.inr (Or.inr (Or.inl h4)))
  · simp only [true_iff]
    exact Or.inr (Or.inr (Or.inr (Or.inr h5)))
  · simp only [Bool.false_eq_true, false_iff]
    rintro (h | h | h | h | h)
    exacts [h1 h, h2 h, h3 h, h4 h, h5 h]

theorem div_mem_unit_of_mul_neg {x y : ℚ} (h : x * y < 0) :
    0 ≤ x / (x - y) ∧ x / (x - y) ≤ 1 ∧ x - y ≠ 0 := by
  rcases mul_neg_iff.mp h with ⟨hx, hy⟩ | ⟨hx, hy⟩
  · have hd : 0 < x - y := by linarith
    refine ⟨div_nonneg hx.le hd.le, ?_, ne_of_gt hd⟩
    rw [div_le_one hd]
    linarith
  · have hd : x - y < 0 := by linarith
    have hrw : x / (x - y) = (-x) / (-(x - y)) := (neg_div_neg_eq x (x - y)).symm
    refine ⟨?_, ?_, ne_of_lt hd⟩
    · rw [hrw]
      exact div_nonneg (by linarith) (by linarith)
    · rw [hrw, div_le_one (by linarith)]
      linarith

theorem proper_common_point {p1 p2 p3 p4 : Pt}
    (h12 : orientation p1 p2 p3 * orientation p1 p2 p4 < 0)
    (h34 : orientation p3 p4 p1 * orientation p3 p4 p2 < 0) :
    ∃ q, Seg p1 p2 q ∧ Seg p3 p4 q := by
  obtain ⟨ht0, ht1, hne⟩ := div_mem_unit_of_mul_neg h12
  obtain ⟨hs0c, hs1c, hne34⟩ := div_mem_unit_of_mul_neg h34
  set t := orientation p1 p2 p3 / (orientation p1 p2 p3 - orientation p1 p2 p4) with hT
  refine ⟨lerp p3 p4 t, ?_, seg_iff_lerp.mpr ⟨t, ht0, ht1, rfl⟩⟩
  have hp12 : p1 ≠ p2 := by
    intro hEq
    rw [hEq] at h12
    rw [orientation_degenerate, orientation_degenerate] at h12
    simp at h12
  have hcol : orientation p1 p2 (lerp p3 p4 t) = 0 := by
    rw [orientation_lerp, hT]
    field_simp
    ring
  have hq := colinear_param hp12 hcol
  set s := tau p1 p2 (lerp p3 p4 t) with hS
  have hzero : orientation p3 p4 (lerp p3 p4 t) = 0 := by
    rw [orientation_lerp, orientation_self_left, orientation_self_right]
    ring
  rw [hq, orientation_lerp] at hzero
  have hs_eq : s = orientation p3 p4 p1 / (orientation p3 p4 p1 - orientation p3 p4 p2) := by
    rw [eq_div_iff hne34]
    linear_combination -1 * hzero
  refine seg_iff_lerp.mpr ⟨s, ?_, ?_, hq⟩
  · rw [hs_eq]
    exact hs0c
  · rw [hs_eq]
    exact hs1c

theorem interval_overlap_1d {t3 t4 c : ℚ} (hc0 : 0 ≤ c) (hc1 : c ≤ 1)
    {t : ℚ} (ht0 : 0 ≤ t) (ht1 : t ≤ 1) (hc : c = t3 + t * (t4 - t3)) :
    (0 ≤ t3 ∧ t3 ≤ 1) ∨ (0 ≤ t4 ∧ t4 ≤ 1) ∨
      (∃ s, 0 ≤ s ∧ s ≤ 1 ∧ (0 : ℚ) = t3 + s * (t4 - t3)) := by
  by_cases h3 : 0 ≤ t3 ∧ t3 ≤ 1
  · exact Or.inl h3
  by_cases h4 : 0 ≤ t4 ∧ t4 ≤ 1
  · exact Or.inr (Or.inl h4)
  rw [not_and_or, not_le, not_le] at h3 h4
  refine Or.inr (Or.inr ?_)
  rcases h3 with h3 | h3 <;> rcases h4 with h4 | h4
  · exfalso
    have hA : t3 * (1 - t) ≤ 0 := mul_nonpos_iff.mpr (Or.inr ⟨h3.le, by linarith⟩)
    have hB : t * t4 ≤ 0 := mul_nonpos_iff.mpr (Or.inl ⟨ht0, h4.le⟩)
    have hsum : t3 * (1 - t) + t * t4 = c := by rw [hc]; ring
    have hA0 : t3 * (1 - t) = 0 := by linarith
    have hB0 : t * t4 = 0 := by linarith
    rcases mul_eq_zero.mp hA0 with h | h
    · exact absurd h (ne_of_lt h3)
    · have ht1' : t = 1 := by linarith
      rw [ht1', one_mul] at hB0
      exact absurd hB0 (ne_of_lt h4)
  · have hd : 0 < t4 - t3 := by linarith
    refine ⟨(0 - t3) / (t4 - t3), ?_, ?_,
      by rw [div_mul_cancel₀ _ (ne_of_gt hd)]; ring⟩
    · exact div_nonneg (by linarith) hd.le
    · rw [div_le_one hd]
      linarith
  · have hd : t4 - t3 < 0 := by linarith
    have hrw : (0 - t3) / (t4 - t3) = (t3 - 0) / (-(t4 - t3)) := by
      rw [← neg_div_neg_eq]
      ring_nf
    refine ⟨(0 - t3) / (t4 - t3), ?_, ?_,
      by rw [div_mul_cancel₀ _ (ne_of_lt hd)]; ring⟩
    · rw [hrw]
      exact div_nonneg (by linarith) (by linarith)
    · rw [hrw, div_le_one (by linarith)]
      linarith
  · exfalso
    have hA : 0 ≤ (1 - t) * (t3 - 1) := mul_nonneg (by linarith) (by linarith)
    have hB : 0 ≤ t * (t4 - 1) := mul_nonneg ht0 (by linarith)
    have hsum : (1 - t) * (t3 - 1) + t * (t4 - 1) = c - 1 := by rw [hc]; ring
    have hA0 : (1 - t) * (t3 - 1) = 0 := by linarith
    have hB0 : t * (t4 - 1) = 0 := by linarith
    rcases mul_eq_zero.mp hA0 with h | h
    · have ht1' : t = 1 := by linarith
      rw [ht1', one_mul] at hB0
      linarith
    · linarith

theorem lerp_lerp (p1 p2 : Pt) (u v t : ℚ) :
    lerp (lerp p1 p2 u) (lerp p1 p2 v) t = lerp p1 p2 (u + t * (v - u)) := by
  ext <;> (simp only [lerp]; ring)

theorem conds_of_common {p1 p2 p3 p4 q : Pt} (hq1 : Seg p1 p2 q) (hq2 : Seg p3 p4 q) :
    (orientation p1 p2 p3 * orientation p1 p2 p4 < 0 ∧
      orientation p3 p4 p1 * orientation p3 p4 p2 < 0) ∨
    (orientation p1 p2 p3 = 0 ∧ onSegment p1 p3 p2 = true) ∨
    (orientation p1 p2 p4 = 0 ∧ onSegment p1 p4 p2 = true) ∨
    (orientation p3 p4 p1 = 0 ∧ onSegment p3 p1 p4 = true) ∨
    (orientation p3 p4 p2 = 0 ∧ onSegment p3 p2 p4 = true) := by
  obtain ⟨s, hs0, hs1, hqs⟩ := seg_iff_lerp.mp hq1
  obtain ⟨t, ht0, ht1, hqt⟩ := seg_iff_lerp.mp hq2
  by_cases hp12 : p1 = p2
  · have hqp1 : q = p1 := by rw [hqs, hp12, lerp_same]
    have hseg : Seg p3 p4 p1 := hqp1 ▸ hq2
    exact Or.inr (Or.inr (Or.inr (Or.inl ⟨orientation_seg_zero hseg, seg_bbox hseg⟩)))
  by_cases hp34 : p3 = p4
  · have hqp3 : q = p3 := by rw [hqt, hp34, lerp_same]
    have hseg : Seg p1 p2 p3 := hqp3 ▸ hq1
    exact Or.inr (Or.inl ⟨orientation_seg_zero hseg, seg_bbox hseg⟩)
  by_cases h12col : orientation p1 p2 p3 = 0 ∧ orientation p1 p2 p4 = 0
  · have hp3 := colinear_param hp12 h12col.1
    have hp4 := colinear_param hp12 h12col.2
    set t3 := tau p1 p2 p3 with hT3
    set t4 := tau p1 p2 p4 with hT4
    have hqq : lerp p1 p2 s = lerp p1 p2 (t3 + t * (t4 - t3)) := by
      rw [← hqs, hqt, hp3, hp4, lerp_lerp]
    have hsc := lerp_inj hp12 hqq
    rcases interval_overlap_1d hs0 hs1 ht0 ht1 hsc with h3 | h4 | ⟨σ, hσ0, hσ1, hσ⟩
    · have hseg : Seg p1 p2 p3 := seg_iff_lerp.mpr ⟨t3, h3.1, h3.2, hp3⟩
      exact Or.inr (Or.inl ⟨h12col.1, seg_bbox hseg⟩)
    · have hseg : Seg p1 p2 p4 := seg_iff_lerp.mpr ⟨t4, h4.1, h4.2, hp4⟩
      exact Or.inr (Or.inr (Or.inl ⟨h12col.2, seg_bbox hseg⟩))
    · have hp1eq : p1 = lerp p3 p4 σ := by
        rw [hp3, hp4, lerp_lerp, ← hσ, lerp_zero]
      have hseg : Seg p3 p4 p1 := seg_iff_lerp.mpr ⟨σ, hσ0, hσ1, hp1eq⟩
      exact Or.inr (Or.inr (Or.inr (Or.inl ⟨orientation_seg_zero hseg, seg_bbox hseg⟩)))
  by_cases h34col : orientation p3 p4 p1 = 0 ∧ orientation p3 p4 p2 = 0
  · have hp1 := colinear_param hp34 h34col.1
    have hp2 := colinear_param hp34 h34col.2
    set t1 := tau p3 p4 p1 with hT1
    set t2 := tau p3 p4 p2 with hT2
    have hqq : lerp p3 p4 t = lerp p3 p4 (t1 + s * (t2 - t1)) := by
      rw [← hqt, hqs, hp1, hp2, lerp_lerp]
    have htc := lerp_inj hp34 hqq
    rcases interval_overlap_1d ht0 ht1 hs0 hs1 htc with h1 | h2 | ⟨σ, hσ0, hσ1, hσ⟩
    · have hseg : Seg p3 p4 p1 := seg_iff_lerp.mpr ⟨t1, h1.1, h1.2, hp1⟩
      exact Or.inr (Or.inr (Or.inr (Or.inl ⟨h34col.1, seg_bbox hseg⟩)))
    · have hseg : Seg p3 p4 p2 := seg_iff_lerp.mpr ⟨t2, h2.1, h2.2, hp2⟩
      exact Or.inr (Or.inr (Or.inr (Or.inr ⟨h34col.2, seg_bbox hseg⟩)))
    · have hp3eq : p3 = lerp p1 p2 σ := by
        rw [hp1, hp2, lerp_lerp, ← hσ, lerp_zero]
      have hseg : Seg p1 p2 p3 := seg_iff_lerp.mpr ⟨σ, hσ0, hσ1, hp3eq⟩
      exact Or.inr (Or.inl ⟨orientation_seg_zero hseg, seg_bbox hseg⟩)
  have hkey12 : (1 - t) * orientation p1 p2 p3 + t * orientation p1 p2 p4 = 0 := by
    have h0 : orientation p1 p2 q = 0 := orientation_seg_zero hq1
    rw [hqt, orientation_lerp] at h0
    linarith
  have hkey34 : (1 - s) * orientation p3 p4 p1 + s * orientation p3 p4 p2 = 0 := by
    have h0 : orientation p3 p4 q = 0 := orientation_seg_zero hq2
    rw [hqs, orientation_lerp] at h0
    linarith
  by_cases ho1 : orientation p1 p2 p3 = 0
  · have ho2 : orientation p1 p2 p4 ≠ 0 := fun h => h12col ⟨ho1, h⟩
    have ht' : t = 0 := by
      rw [ho1] at hkey12
      rcases mul_eq_zero.mp (by linarith : t * orientation p1 p2 p4 = 0) with h | h
      · exact h
      · exact absurd h ho2
    have hqp3 : q = p3 := by rw [hqt, ht', lerp_zero]
    have hseg : Seg p1 p2 p3 := hqp3 ▸ hq1
    exact Or.inr (Or.inl ⟨ho1, seg_bbox hseg⟩)
  by_cases ho2 : orientation p1 p2 p4 = 0
  · have ht' : t = 1 := by
      rw [ho2] at hkey12
      have := mul_eq_zero.mp (by linarith : (1 - t) * orientation p1 p2 p3 = 0)
      rcases this with h | h
      · linarith
      · exact absurd h ho1
    have hqp4 : q = p4 := by rw [hqt, ht', lerp_one]
    have hseg : Seg p1 p2 p4 := hqp4 ▸ hq1
    exact Or.inr (Or.inr (Or.inl ⟨ho2, seg_bbox hseg⟩))
  by_cases ho3 : orientation p3 p4 p1 = 0
  · have ho4 : orientation p3 p4 p2 ≠ 0 := fun h => h34col ⟨ho3, h⟩
    have hs' : s = 0 := by
      rw [ho3] at hkey34
      rcases mul_eq_zero.mp (by linarith : s * orientation p3 p4 p2 = 0) with h | h
      · exact h
      · exact absurd h ho4
    have hqp1 : q = p1 := by rw [hqs, hs', lerp_zero]
    have hseg : Seg p3 p4 p1 := hqp1 ▸ hq2
    exact Or.inr (Or.inr (Or.inr (Or.inl ⟨ho3, seg_bbox hseg⟩)))
  by_cases ho4 : orientation p3 p4 p2 = 0
  · have hs' : s = 1 := by
      rw [ho4] at hkey34
      have := mul_eq_zero.mp (by linarith : (1 - s) * orientation p3 p4 p1 = 0)
      rcases this with h | h
      · linarith
      · exact absurd h ho3
    have hqp2 : q = p2 := by rw [hqs, hs', lerp_one]
    have hseg : Seg p3 p4 p2 := hqp2 ▸ hq2
    exact Or.inr (Or.inr (Or.inr (Or.inr ⟨ho4, seg_bbox hseg⟩)))
  refine Or.inl ⟨?_, ?_⟩
  · have htpos : 0 < t := lt_of_le_of_ne ht0 (by
      intro h
      apply ho1
      rw [← h] at hkey12
      linarith)
    have htlt : t < 1 := lt_of_le_of_ne ht1 (by
      intro h
      apply ho2
      rw [h] at hkey12
      linarith)
    have hmul : (1 - t) * (orientation p1 p2 p3 * orientation p1 p2 p3) +
        t * (orientation p1 p2 p3 * orientation p1 p2 p4) = 0 := by
      linear_combination orientation p1 p2 p3 * hkey12
    nlinarith [hmul, mul_self_pos.mpr ho1, htpos, htlt]
  · have hspos : 0 < s := lt_of_le_of_ne hs0 (by
      intro h
      apply ho3
      rw [← h] at hkey34
      linarith)
    have hslt : s < 1 := lt_of_le_of_ne hs1 (by
      intro h
      apply ho4
      rw [h] at hkey34
      linarith)
    have hmul : (1 - s) * (orientation p3 p4 p1 * orientation p3 p4 p1) +
        s * (orientation p3 p4 p1 * orientation p3 p4 p2) = 0 := by
      linear_combination orientation p3 p4 p1 * hkey34
    nlinarith [hmul, mul_self_pos.mpr ho3, hspos, hslt]

theorem segmentsIntersect_iff_common (p1 p2 p3 p4 : Pt) :
    segmentsIntersect p1 p2 p3 p4 = true ↔ ∃ q, Seg p1 p2 q ∧ Seg p3 p4 q := by
  rw [segmentsIntersect_conds]
  constructor
  · rintro (⟨hp, hq⟩ | ⟨h0, hb⟩ | ⟨h0, hb⟩ | ⟨h0, hb⟩ | ⟨h0, hb⟩)
    · exact proper_common_point hp hq
    · exact ⟨p3, seg_of_colinear_onSegment h0 hb, seg_endpoint_left p3 p4⟩
    · exact ⟨p4, seg_of_colinear_onSegment h0 hb, seg_endpoint_right p3 p4⟩
    · exact ⟨p1, seg_endpoint_left p1 p2, seg_of_colinear_onSegment h0 hb⟩
    · exact ⟨p2, seg_endpoint_right p1 p2, seg_of_colinear_onSegment h0 hb⟩
  · rintro ⟨q, hq1, hq2⟩
    exact conds_of_common hq1 hq2

/-- C7: `segmentsIntersect` returns true exactly when the two closed segments
share a point.  In particular it returns true for proper crossings, for
segments sharing an endpoint, and for colinear overlapping segments (all of
which have a common point), and false for disjoint, non-touching segments
(which have none). -/
theorem c7_segment_intersection_classification (p1 p2 p3 p4 : Pt) :
    segmentsIntersect p1 p2 p3 p4 = true ↔ ∃ q, Seg p1 p2 q ∧ Seg p3 p4 q :=
  segmentsIntersect_iff_common p1 p2 p3 p4

/-- Witness for C7: a concrete proper crossing. -/
theorem c7_segment_intersection_classification_witness :
    segmentsIntersect ⟨0, 0⟩ ⟨2, 2⟩ ⟨0, 2⟩ ⟨2, 0⟩ = true :=
  (c7_segment_intersection_classification ⟨0, 0⟩ ⟨2, 2⟩ ⟨0, 2⟩ ⟨2, 0⟩).mpr
    ⟨⟨1, 1⟩, ⟨1/2, by norm_num, by norm_num, by norm_num, by norm_num⟩,
      ⟨1/2, by norm_num, by norm_num, by norm_num, by norm_num⟩⟩

/-! ## Inclusive boundaries (C6) -/

theorem bboxFold_le {l : List Pt} {acc : Bbox} :
    (l.foldl
        (fun bb p =>
          ⟨min bb.minLng p.x, min bb.minLat p.y, max bb.maxLng p.x, max bb.maxLat p.y⟩)
        acc).minLng ≤ acc.minLng ∧
    (l.foldl
        (fun bb p =>
          ⟨min bb.minLng p.x, min bb.minLat p.y, max bb.maxLng p.x, max bb.maxLat p.y⟩)
        acc).minLat ≤ acc.minLat ∧
    acc.maxLng ≤ (l.foldl
        (fun bb p =>
          ⟨min bb.minLng p.x, min bb.minLat p.y, max bb.maxLng p.x, max bb.maxLat p.y⟩)
        acc).maxLng ∧
    acc.maxLat ≤ (l.foldl
        (fun bb p =>
          ⟨min bb.minLng p.x, min bb.minLat p.y, max bb.maxLng p.x, max bb.maxLat p.y⟩)
        acc).maxLat := by
  induction l generalizing acc with
  | nil => exact ⟨le_refl _, le_refl _, le_refl _, le_refl _⟩
  | cons p l ih =>
    obtain ⟨h1, h2, h3, h4⟩ := @ih ⟨min acc.minLng p.x, min acc.minLat p.y,
      max acc.maxLng p.x, max acc.maxLat p.y⟩
    refine ⟨le_trans h1 (min_le_left _ _), le_trans h2 (min_le_left _ _),
      le_trans (le_max_left _ _) h3, le_trans (le_max_left _ _) h4⟩

theorem bboxFold_mem {l : List Pt} {acc : Bbox} {p : Pt} (hp : p ∈ l) :
    inBbox
      (l.foldl
        (fun bb q =>
          ⟨min bb.minLng q.x, min bb.minLat q.y, max bb.maxLng q.x, max bb.maxLat q.y⟩)
        acc) p := by
  induction l generalizing acc with
  | nil => exact absurd hp (List.not_mem_nil p)
  | cons c l ih =>
    rcases List.mem_cons.mp hp with rfl | hp'
    · obtain ⟨h1, h2, h3, h4⟩ := @bboxFold_le l ⟨min acc.minLng p.x,
        min acc.minLat p.y, max acc.maxLng p.x, max acc.maxLat p.y⟩
      exact ⟨le_trans h1 (min_le_right _ _), le_trans (le_max_right _ _) h3,
        le_trans h2 (min_le_right _ _), le_trans (le_max_right _ _) h4⟩
    · exact ih hp'

theorem getPolygonBbox_mem {coords : List Pt} {p : Pt} (hp : p ∈ coords) :
    inBbox (getPolygonBbox coords) p := by
  cases coords with
  | nil => exact absurd hp (List.not_mem_nil p)
  | cons c rest =>
    rcases List.mem_cons.mp hp with rfl | hp'
    · obtain ⟨h1, h2, h3, h4⟩ := @bboxFold_le rest ⟨p.x, p.y, p.x, p.y⟩
      exact ⟨h1, h3, h2, h4⟩
    · exact bboxFold_mem hp'

theorem inBbox_seg {bb : Bbox} {a b q : Pt} (ha : inBbox bb a) (hb : inBbox bb b)
    (h : Seg a b q) : inBbox bb q := by
  obtain ⟨t, h0, h1, hx, hy⟩ := h
  obtain ⟨hx1, hx2⟩ := lerp_bounds_1d (u := a.x) (v := b.x) h0 h1
  obtain ⟨hy1, hy2⟩ := lerp_bounds_1d (u := a.y) (v := b.y) h0 h1
  obtain ⟨ha1, ha2, ha3, ha4⟩ := ha
  obtain ⟨hb1, hb2, hb3, hb4⟩ := hb
  rw [← hx] at hx1 hx2
  rw [← hy] at hy1 hy2
  refine ⟨le_trans (le_min ha1 hb1) hx1, le_trans hx2 (max_le ha2 hb2),
    le_trans (le_min ha3 hb3) hy1, le_trans hy2 (max_le ha4 hb4)⟩

theorem bboxIntersects_of_common {b1 b2 : Bbox} {q : Pt}
    (h1 : inBbox b1 q) (h2 : inBbox b2 q) : bboxIntersects b1 b2 = true := by
  rw [bboxIntersects_iff]
  obtain ⟨a1, a2, a3, a4⟩ := h1
  obtain ⟨c1, c2, c3, c4⟩ := h2
  exact ⟨by linarith, by linarith, by linarith, by linarith⟩

theorem segPairs_mem {l : List Pt} {ab : Pt × Pt} (h : ab ∈ segPairs l) :
    ab.1 ∈ l ∧ ab.2 ∈ l := by
  obtain ⟨a, b⟩ := ab
  unfold segPairs at h
  obtain ⟨h1, h2⟩ := List.of_mem_zip h
  exact ⟨h1, List.mem_of_mem_tail h2⟩

theorem lineIntersectsPolygon_of_mem {line poly : List Pt} {sa sb : Pt × Pt}
    (ha : sa ∈ segPairs line) (hb : sb ∈ segPairs poly)
    (hint : segmentsIntersect sa.1 sa.2 sb.1 sb.2 = true) :
    lineIntersectsPolygon line poly = true := by
  unfold lineIntersectsPolygon
  rw [List.any_eq_true]
  refine ⟨sa, ha, ?_⟩
  rw [List.any_eq_true]
  exact ⟨sb, hb, hint⟩

theorem polygonIntersectTest_eq (e : IdxEntry) (rd : RunData) (poly : List Pt) :
    polygonIntersectTest e rd poly =
      (if pointInPolygon ⟨(e.bbox.minLng + e.bbox.maxLng) / 2,
            (e.bbox.minLat + e.bbox.maxLat) / 2⟩ poly then true
        else if (bboxCorners e.bbox).any (fun c => pointInPolygon c poly) then true
        else
          match rd.geoms.full.or (rd.geoms.high.or (rd.geoms.mid.or rd.geoms.low)) with
          | some geom =>
            if geom.coordinates.any (fun c => pointInPolygon c poly) then true
            else lineIntersectsPolygon geom.coordinates poly
          | none => false) := rfl

theorem polygonIntersectTest_of_line {e : IdxEntry} {rd : RunData} {poly : List Pt}
    {geom : Geom}
    (hfull : rd.geoms.full.or (rd.geoms.high.or (rd.geoms.mid.or rd.geoms.low)) = some geom)
    (hline : lineIntersectsPolygon geom.coordinates poly = true) :
    polygonIntersectTest e rd poly = true := by
  rw [polygonIntersectTest_eq]
  split_ifs with h1 h2
  · rfl
  · rfl
  · rw [hfull]
    dsimp only
    split_ifs with h3
    · rfl
    · exact hline

theorem polygonIntersectTest_of_vertex {e : IdxEntry} {rd : RunData} {poly : List Pt}
    {geom : Geom} {c : Pt}
    (hfull : rd.geoms.full.or (rd.geoms.high.or (rd.geoms.mid.or rd.geoms.low)) = some geom)
    (hc : c ∈ geom.coordinates) (hpip : pointInPolygon c poly = true) :
    polygonIntersectTest e rd poly = true := by
  rw [polygonIntersectTest_eq]
  split_ifs with h1 h2
  · rfl
  · rfl
  · rw [hfull]
    dsimp only
    split_ifs with h3
    · rfl
    · exact absurd (List.any_eq_true.mpr ⟨c, hc, hpip⟩) h3

theorem mem_getRunsInPolygon {st : SIState} {e : IdxEntry} {rd : RunData}
    {poly : List Pt}
    (hl : st.loaded = true) (he : e ∈ st.spatialIndex)
    (hrd : st.runsData.lookup e.id = some rd)
    (hbb : bboxIntersects e.bbox (getPolygonBbox poly) = true)
    (htest : polygonIntersectTest e rd poly = true) :
    e.id ∈ (getRunsInPolygon st poly).map RunSummary.id := by
  unfold getRunsInPolygon
  rw [hl, if_pos rfl]
  refine List.mem_map.mpr ⟨⟨e.id, rd.metadata, rd.bbox⟩, ?_, rfl⟩
  refine List.mem_filterMap.mpr ⟨e, he, ?_⟩
  dsimp only
  rw [hbb, if_pos rfl, hrd]
  dsimp only
  rw [htest, if_pos rfl]

/-- C6: inclusive boundaries.  (a) An activity whose bounding box merely
touches the query box edge (closed overlap with a shared boundary coordinate)
is returned by the viewport query.  (b) An activity whose full-resolution
geometry touches a polygon edge (some point lies on both a geometry segment
and a polygon segment) is returned by the polygon query. -/
theorem c6_inclusive_boundaries :
    (∀ (st : SIState) (e : IdxEntry) (rd : RunData)
        (minLat minLng maxLat maxLng zoom : ℚ),
      st.loaded = true → e ∈ st.spatialIndex →
      st.runsData.lookup e.id = some rd → wfRun rd →
      bboxTouch e.bbox ⟨minLng, minLat, maxLng, maxLat⟩ →
      e.id ∈ fcIds (getRunsForBounds st minLat minLng maxLat maxLng zoom)) ∧
    (∀ (st : SIState) (e : IdxEntry) (rd : RunData) (coords poly : List Pt)
        (sa sb : Pt × Pt) (q : Pt),
      st.loaded = true → e ∈ st.spatialIndex →
      st.runsData.lookup e.id = some rd →
      rd.geoms.full = some ⟨coords⟩ →
      e.bbox = getPolygonBbox coords →
      sa ∈ segPairs coords → sb ∈ segPairs poly →
      Seg sa.1 sa.2 q → Seg sb.1 sb.2 q →
      e.id ∈ (getRunsInPolygon st poly).map RunSummary.id) := by
  constructor
  · intro st e rd minLat minLng maxLat maxLng zoom hl he hrd hwf htouch
    obtain ⟨⟨t1, t2, t3, t4⟩, _⟩ := htouch
    exact mem_getRunsForBounds hl he hrd hwf minLat minLng maxLat maxLng zoom
      (bboxIntersects_iff.mpr ⟨t2, t1, t4, t3⟩)
  · intro st e rd coords poly sa sb q hl he hrd hfull hbb hsa hsb hqa hqb
    obtain ⟨ha1, ha2⟩ := segPairs_mem hsa
    obtain ⟨hb1, hb2⟩ := segPairs_mem hsb
    have hqrun : inBbox (getPolygonBbox coords) q :=
      inBbox_seg (getPolygonBbox_mem ha1) (getPolygonBbox_mem ha2) hqa
    have hqpoly : inBbox (getPolygonBbox poly) q :=
      inBbox_seg (getPolygonBbox_mem hb1) (getPolygonBbox_mem hb2) hqb
    have hint : bboxIntersects e.bbox (getPolygonBbox poly) = true := by
      rw [hbb]
      exact bboxIntersects_of_common hqrun hqpoly
    have hchain : rd.geoms.full.or (rd.geoms.high.or (rd.geoms.mid.or rd.geoms.low)) =
        some ⟨coords⟩ := by
      rw [hfull]
      rfl
    have hseg : segmentsIntersect sa.1 sa.2 sb.1 sb.2 = true :=
      (segmentsIntersect_iff_common sa.1 sa.2 sb.1 sb.2).mpr ⟨q, hqa, hqb⟩
    exact mem_getRunsInPolygon hl he hrd hint
      (polygonIntersectTest_of_line hchain (lineIntersectsPolygon_of_mem hsa hsb hseg))

/-- Witness for C6: a run whose box touches the query box only at the corner
`(4,4)`, and a run lying on the right edge of a square lasso. -/
theorem c6_inclusive_boundaries_witness :
    7 ∈ fcIds (getRunsForBounds wState 4 4 5 5 12) ∧
    9 ∈ ((getRunsInPolygon wEdgeState
        [⟨0, 0⟩, ⟨4, 0⟩, ⟨4, 4⟩, ⟨0, 4⟩, ⟨0, 0⟩]).map RunSummary.id) := by
  constructor
  · exact c6_inclusive_boundaries.1 wState ⟨7, getPolygonBbox wTrack⟩
      ⟨buildGeoms wTrack, getPolygonBbox wTrack, "m"⟩ 4 4 5 5 12
      rfl (by norm_num [wState]) rfl
      (buildGeoms_wf wTrack (by norm_num [wTrack]) _ _)
      (by norm_num [bboxTouch, bboxClosedOverlap, wTrack, getPolygonBbox])
  · exact c6_inclusive_boundaries.2 wEdgeState ⟨9, getPolygonBbox wEdgeTrack⟩
      ⟨buildGeoms wEdgeTrack, getPolygonBbox wEdgeTrack, "m"⟩ wEdgeTrack
      [⟨0, 0⟩, ⟨4, 0⟩, ⟨4, 4⟩, ⟨0, 4⟩, ⟨0, 0⟩]
      (⟨4, 1⟩, ⟨4, 2⟩) (⟨4, 0⟩, ⟨4, 4⟩) ⟨4, 1⟩
      rfl (by norm_num [wEdgeState]) rfl rfl rfl
      (by norm_num [segPairs, wEdgeTrack])
      (by norm_num [segPairs])
      ⟨0, le_refl 0, zero_le_one, by norm_num, by norm_num⟩
      ⟨1/4, by norm_num, by norm_num, by norm_num, by norm_num⟩

/-! ### C5: polygon inclusion for convex polygons.

The development works with an abstract vertex function `V : Fin n → Pt` in
strictly convex counterclockwise position (`SCC`) and is later instantiated
with `ringV ring`; clockwise rings are handled by the reversal
`fun i => ringV ring (-i - 1)`. -/

theorem ccw_self_base (a b : Pt) : ccw a b a = 0 := by
  simp only [ccw]
  ring

theorem ccw_self_mid (a b : Pt) : ccw a b b = 0 := by
  simp only [ccw]
  ring

theorem ccw_degenerate (a c : Pt) : ccw a a c = 0 := by
  simp only [ccw]
  ring

theorem ccw_swap (a b c : Pt) : ccw b a c = -ccw a b c := by
  simp only [ccw]
  ring

theorem orientation_eq_neg_ccw (a b c : Pt) : orientation a b c = -ccw a b c := by
  simp only [orientation, ccw]
  ring

theorem ccw_lerp (a b u v : Pt) (t : ℚ) :
    ccw a b (lerp u v t) = (1 - t) * ccw a b u + t * ccw a b v := by
  simp only [ccw, lerp]
  ring

theorem finNext_val {n : ℕ} (i : Fin n) : (finNext i).val = (i.val + 1) % n := rfl

theorem finNext_inj {n : ℕ} : Function.Injective (finNext (n := n)) := by
  intro i j h
  have hv : (i.val + 1) % n = (j.val + 1) % n := congrArg Fin.val h
  have hi := i.isLt
  have hj := j.isLt
  apply Fin.ext
  rcases Nat.lt_or_ge (i.val + 1) n with hi' | hi' <;>
    rcases Nat.lt_or_ge (j.val + 1) n with hj' | hj'
  · rw [Nat.mod_eq_of_lt hi', Nat.mod_eq_of_lt hj'] at hv
    omega
  · have hj'' : j.val + 1 = n := by omega
    rw [Nat.mod_eq_of_lt hi', hj'', Nat.mod_self] at hv
    omega
  · have hi'' : i.val + 1 = n := by omega
    rw [hi'', Nat.mod_self, Nat.mod_eq_of_lt hj'] at hv
    omega
  · omega

theorem finNext_surj {n : ℕ} (t : Fin n) : ∃ p : Fin n, finNext p = t := by
  have hn : 0 < n := Nat.zero_lt_of_lt t.isLt
  have htl := t.isLt
  by_cases ht : t.val = 0
  · refine ⟨⟨n - 1, by omega⟩, ?_⟩
    apply Fin.ext
    rw [finNext_val]
    show (n - 1 + 1) % n = t.val
    have hs : n - 1 + 1 = n := by omega
    rw [hs, Nat.mod_self, ht]
  · refine ⟨⟨t.val - 1, by omega⟩, ?_⟩
    apply Fin.ext
    rw [finNext_val]
    show (t.val - 1 + 1) % n = t.val
    have hs : t.val - 1 + 1 = t.val := by omega
    rw [hs, Nat.mod_eq_of_lt htl]

theorem finNext_ne {n : ℕ} (hn : 2 ≤ n) (i : Fin n) : finNext i ≠ i := by
  intro h
  have hv := congrArg Fin.val h
  have hi := i.isLt
  rw [finNext_val] at hv
  rcases Nat.lt_or_ge (i.val + 1) n with hlt | hge
  · rw [Nat.mod_eq_of_lt hlt] at hv
    omega
  · have hs : i.val + 1 = n := by omega
    rw [hs, Nat.mod_self] at hv
    omega

theorem finNext_next_val {n : ℕ} (i : Fin n) :
    (finNext (finNext i)).val = (i.val + 1 + 1) % n := by
  rw [finNext_val, finNext_val, Nat.mod_add_mod]

theorem finNext_next_ne_self {n : ℕ} (hn : 3 ≤ n) (i : Fin n) :
    finNext (finNext i) ≠ i := by
  intro h
  have hv := congrArg Fin.val h
  have hi := i.isLt
  rw [finNext_next_val] at hv
  rcases Nat.lt_or_ge (i.val + 1 + 1) n with hlt | hge
  · rw [Nat.mod_eq_of_lt hlt] at hv
    omega
  · have hsub : i.val + 1 + 1 - n < n := by omega
    rw [Nat.mod_eq_sub_mod hge, Nat.mod_eq_of_lt hsub] at hv
    omega

theorem finNext_next_ne_next {n : ℕ} (hn : 3 ≤ n) (i : Fin n) :
    finNext (finNext i) ≠ finNext i :=
  finNext_ne (by omega) (finNext i)

theorem SCC_turn {n : ℕ} (hn : 3 ≤ n) {V : Fin n → Pt} (hconv : SCC V) (i : Fin n) :
    0 < ccw (V i) (V (finNext i)) (V (finNext (finNext i))) :=
  hconv i _ (finNext_next_ne_self hn i) (finNext_next_ne_next hn i)

theorem SCC_vertex_halfplane {n : ℕ} {V : Fin n → Pt} (hconv : SCC V) (i j : Fin n) :
    0 ≤ ccw (V i) (V (finNext i)) (V j) := by
  by_cases h1 : j = i
  · rw [h1]
    exact le_of_eq (ccw_self_base _ _).symm
  · by_cases h2 : j = finNext i
    · rw [h2]
      exact le_of_eq (ccw_self_mid _ _).symm
    · exact (hconv i j h1 h2).le

theorem edge_point_halfplane {n : ℕ} {V : Fin n → Pt} (hconv : SCC V) (j : Fin n)
    {i : Fin n} {p : Pt} (hp : Seg (V i) (V (finNext i)) p) :
    0 ≤ ccw (V j) (V (finNext j)) p := by
  obtain ⟨t, h0, h1, rfl⟩ := seg_iff_lerp.mp hp
  rw [ccw_lerp]
  have ha := SCC_vertex_halfplane hconv j i
  have hb := SCC_vertex_halfplane hconv j (finNext i)
  have hc := mul_nonneg (sub_nonneg.mpr h1) ha
  have hd := mul_nonneg h0 hb
  linarith

theorem convex_support_bound {a t b q : Pt} (ux uy : ℚ)
    (h1 : 0 ≤ ux * (t.x - a.x) + uy * (t.y - a.y))
    (h2 : ux * (b.x - t.x) + uy * (b.y - t.y) ≤ 0)
    (hturn : 0 < ccw a t b)
    (hq1 : 0 ≤ ccw a t q) (hq2 : 0 ≤ ccw t b q) :
    ux * (q.x - t.x) + uy * (q.y - t.y) ≤ 0 := by
  have key : (-(ux * (b.x - t.x) + uy * (b.y - t.y))) * ccw a t q +
      (ux * (t.x - a.x) + uy * (t.y - a.y)) * ccw t b q =
      ccw a t b * (-(ux * (q.x - t.x) + uy * (q.y - t.y))) := by
    simp only [ccw]
    ring
  by_contra hx
  push_neg at hx
  nlinarith [mul_nonneg (neg_nonneg.mpr h2) hq1, mul_nonneg h1 hq2, key,
    mul_pos hturn hx]

theorem convex_support_bound_strict {a t b q : Pt} (ux uy : ℚ)
    (hu : 0 < ux ^ 2 + uy ^ 2)
    (h1 : 0 ≤ ux * (t.x - a.x) + uy * (t.y - a.y))
    (h2 : ux * (b.x - t.x) + uy * (b.y - t.y) ≤ 0)
    (hturn : 0 < ccw a t b)
    (hq1 : 0 < ccw a t q) (hq2 : 0 < ccw t b q) :
    ux * (q.x - t.x) + uy * (q.y - t.y) < 0 := by
  have key : (-(ux * (b.x - t.x) + uy * (b.y - t.y))) * ccw a t q +
      (ux * (t.x - a.x) + uy * (t.y - a.y)) * ccw t b q =
      ccw a t b * (-(ux * (q.x - t.x) + uy * (q.y - t.y))) := by
    simp only [ccw]
    ring
  have hl : 0 ≤ -(ux * (b.x - t.x) + uy * (b.y - t.y)) := neg_nonneg.mpr h2
  rcases hl.lt_or_eq with hl' | hl'
  · by_contra hx
    push_neg at hx
    nlinarith [mul_pos hl' hq1, mul_nonneg h1 hq2.le, key, mul_nonneg hturn.le hx]
  · rcases h1.lt_or_eq with hm' | hm'
    · by_contra hx
      push_neg at hx
      nlinarith [mul_pos hm' hq2, mul_nonneg hl hq1.le, key, mul_nonneg hturn.le hx]
    · exfalso
      have key2 : ccw a t b * (ux ^ 2 + uy ^ 2) =
          (ux * (t.x - a.x) + uy * (t.y - a.y)) * (ux * (b.y - t.y) - uy * (b.x - t.x)) -
          (ux * (b.x - t.x) + uy * (b.y - t.y)) * (ux * (t.y - a.y) - uy * (t.x - a.x)) := by
        simp only [ccw]
        ring
      have hz1 : ux * (t.x - a.x) + uy * (t.y - a.y) = 0 := hm'.symm
      have hz2 : ux * (b.x - t.x) + uy * (b.y - t.y) = 0 := by linarith
      rw [hz1, hz2, zero_mul, zero_mul, sub_zero] at key2
      nlinarith [key2, mul_pos hturn hu]

theorem support_vertex {n : ℕ} (hn : 3 ≤ n) (V : Fin n → Pt) (ux uy : ℚ) :
    ∃ t : Fin n, ∀ i : Fin n,
      ux * (V i).x + uy * (V i).y ≤ ux * (V t).x + uy * (V t).y := by
  have hne : (Finset.univ : Finset (Fin n)).Nonempty :=
    ⟨⟨0, by omega⟩, Finset.mem_univ _⟩
  obtain ⟨t, -, ht⟩ := Finset.exists_max_image Finset.univ
    (fun i => ux * (V i).x + uy * (V i).y) hne
  exact ⟨t, fun i => ht i (Finset.mem_univ i)⟩

theorem inCCW_dir_bound {n : ℕ} (hn : 3 ≤ n) {V : Fin n → Pt} (hconv : SCC V)
    {q : Pt} (hq : InCCW V q) (ux uy : ℚ) :
    ∃ t : Fin n, ux * (q.x - (V t).x) + uy * (q.y - (V t).y) ≤ 0 := by
  obtain ⟨t, ht⟩ := support_vertex hn V ux uy
  obtain ⟨p, hp⟩ := finNext_surj t
  refine ⟨t, ?_⟩
  have hturn : 0 < ccw (V p) (V t) (V (finNext t)) := by
    have h := SCC_turn hn hconv p
    rwa [hp] at h
  have hq1 : 0 ≤ ccw (V p) (V t) q := by
    have h := hq p
    rwa [hp] at h
  have hq2 : 0 ≤ ccw (V t) (V (finNext t)) q := hq t
  have h1 : 0 ≤ ux * ((V t).x - (V p).x) + uy * ((V t).y - (V p).y) := by
    have h := ht p
    linarith
  have h2 : ux * ((V (finNext t)).x - (V t).x) + uy * ((V (finNext t)).y - (V t).y) ≤ 0 := by
    have h := ht (finNext t)
    linarith
  exact convex_support_bound ux uy h1 h2 hturn hq1 hq2

theorem strictInCCW_dir_bound {n : ℕ} (hn : 3 ≤ n) {V : Fin n → Pt} (hconv : SCC V)
    {q : Pt} (hq : StrictInCCW V q) (ux uy : ℚ) (hu : 0 < ux ^ 2 + uy ^ 2) :
    ∃ t : Fin n, ux * (q.x - (V t).x) + uy * (q.y - (V t).y) < 0 := by
  obtain ⟨t, ht⟩ := support_vertex hn V ux uy
  obtain ⟨p, hp⟩ := finNext_surj t
  refine ⟨t, ?_⟩
  have hturn : 0 < ccw (V p) (V t) (V (finNext t)) := by
    have h := SCC_turn hn hconv p
    rwa [hp] at h
  have hq1 : 0 < ccw (V p) (V t) q := by
    have h := hq p
    rwa [hp] at h
  have hq2 : 0 < ccw (V t) (V (finNext t)) q := hq t
  have h1 : 0 ≤ ux * ((V t).x - (V p).x) + uy * ((V t).y - (V p).y) := by
    have h := ht p
    linarith
  have h2 : ux * ((V (finNext t)).x - (V t).x) + uy * ((V (finNext t)).y - (V t).y) ≤ 0 := by
    have h := ht (finNext t)
    linarith
  exact convex_support_bound_strict ux uy hu h1 h2 hturn hq1 hq2

theorem inCCW_inBbox {n : ℕ} (hn : 3 ≤ n) {V : Fin n → Pt} (hconv : SCC V)
    {q : Pt} (hq : InCCW V q) {bb : Bbox} (hmem : ∀ i, inBbox bb (V i)) :
    inBbox bb q := by
  obtain ⟨t1, h1⟩ := inCCW_dir_bound hn hconv hq 1 0
  obtain ⟨t2, h2⟩ := inCCW_dir_bound hn hconv hq (-1) 0
  obtain ⟨t3, h3⟩ := inCCW_dir_bound hn hconv hq 0 1
  obtain ⟨t4, h4⟩ := inCCW_dir_bound hn hconv hq 0 (-1)
  obtain ⟨a1, a2, a3, a4⟩ := hmem t1
  obtain ⟨b1, b2, b3, b4⟩ := hmem t2
  obtain ⟨c1, c2, c3, c4⟩ := hmem t3
  obtain ⟨d1, d2, d3, d4⟩ := hmem t4
  refine ⟨by linarith, by linarith, by linarith, by linarith⟩

theorem pipCross_degenerate (q a : Pt) : pipCross q (a, a) = false := by
  simp [pipCross]

theorem pipPairs_cons_eq (p : Pt) (rest : List Pt) :
    pipPairs (p :: rest) = ((p :: rest).getLastD p, p) :: segPairs (p :: rest) := by
  simp only [pipPairs, segPairs, List.zip_cons_cons, List.tail_cons]

theorem foldl_toggle_parity (q : Pt) (l : List (Pt × Pt)) (acc : Bool) :
    l.foldl (fun inside e => if pipCross q e then !inside else inside) acc =
      xor acc (decide (l.countP (pipCross q) % 2 = 1)) := by
  induction l generalizing acc with
  | nil => simp
  | cons c l ih =>
    by_cases h : pipCross q c = true
    · rw [List.foldl_cons, if_pos h, ih, List.countP_cons, if_pos h]
      have hpar : ((l.countP (pipCross q) + 1) % 2 = 1) ↔
          ¬(l.countP (pipCross q) % 2 = 1) := by
        omega
      by_cases hp : l.countP (pipCross q) % 2 = 1 <;> cases acc <;>
        simp [hp, hpar]
    · rw [List.foldl_cons, if_neg h, ih, List.countP_cons, if_neg h]
      simp

theorem pointInPolygon_parity (q : Pt) (poly : List Pt) :
    pointInPolygon q poly =
      decide ((pipPairs poly).countP (pipCross q) % 2 = 1) := by
  unfold pointInPolygon
  rw [foldl_toggle_parity]
  cases h : decide ((pipPairs poly).countP (pipCross q) % 2 = 1) <;> rfl

theorem countP_eq_card_filter_fin {α : Type} (p : α → Bool) (l : List α) :
    l.countP p =
      (Finset.univ.filter (fun i : Fin l.length => p (l.get i) = true)).card := by
  rw [Finset.card_filter]
  induction l with
  | nil => simp
  | cons a l ih =>
    rw [List.countP_cons, ih]
    show ((∑ i : Fin l.length, if p (l.get i) = true then 1 else 0) +
        if p a = true then 1 else 0) =
      ∑ i : Fin (l.length + 1), if p ((a :: l).get i) = true then 1 else 0
    rw [Fin.sum_univ_succ]
    simp only [List.get_eq_getElem, Fin.val_succ, Fin.val_zero,
      List.getElem_cons_succ, List.getElem_cons_zero]
    omega

theorem closedRing_cons (r0 : Pt) (rtl : List Pt) :
    closedRing (r0 :: rtl) = r0 :: (rtl ++ [r0]) := by
  simp [closedRing]

theorem closedRing_length (ring : List Pt) (h : ring ≠ []) :
    (closedRing ring).length = ring.length + 1 := by
  cases ring with
  | nil => exact absurd rfl h
  | cons r0 rtl => simp [closedRing_cons]

theorem segPairs_closedRing_length (ring : List Pt) (h : ring ≠ []) :
    (segPairs (closedRing ring)).length = ring.length := by
  unfold segPairs
  rw [List.length_zip, List.length_tail, closedRing_length ring h]
  omega

theorem pipPairs_closedRing (r0 : Pt) (rtl : List Pt) :
    pipPairs (closedRing (r0 :: rtl)) =
      (r0, r0) :: segPairs (closedRing (r0 :: rtl)) := by
  conv_lhs => rw [closedRing_cons, pipPairs_cons_eq]
  rw [List.getLastD_cons, List.getLastD_concat, ← closedRing_cons]

theorem segPairs_closedRing_getElem {ring : List Pt} (hne : ring ≠ []) (k : ℕ)
    (hk1 : k < ring.length) (hk : k < (segPairs (closedRing ring)).length) :
    (segPairs (closedRing ring))[k] =
      (ringV ring ⟨k, hk1⟩, ringV ring (finNext ⟨k, hk1⟩)) := by
  obtain ⟨r0, rtl, rfl⟩ : ∃ r0 rtl, ring = r0 :: rtl := by
    cases ring with
    | nil => exact absurd rfl hne
    | cons a l => exact ⟨a, l, rfl⟩
  have hlen := closedRing_length (r0 :: rtl) hne
  have hk2 : k < (closedRing (r0 :: rtl)).length := by omega
  have hk3 : k < (closedRing (r0 :: rtl)).tail.length := by
    rw [List.length_tail]
    omega
  unfold segPairs
  rw [List.getElem_zip, List.getElem_tail]
  have hfst : (closedRing (r0 :: rtl))[k] = (r0 :: rtl)[k] := by
    unfold closedRing
    exact List.getElem_append_left hk1
  rw [hfst]
  rcases Nat.lt_or_ge (k + 1) (r0 :: rtl).length with hlt | hge
  · have hsnd : (closedRing (r0 :: rtl))[k + 1] = (r0 :: rtl)[k + 1] := by
      unfold closedRing
      exact List.getElem_append_left hlt
    rw [hsnd]
    unfold ringV finNext
    rw [Prod.mk.injEq]
    refine ⟨by rw [List.get_eq_getElem], ?_⟩
    rw [List.get_eq_getElem]
    congr 1
    exact (Nat.mod_eq_of_lt hlt).symm
  · have heq : k + 1 = (r0 :: rtl).length := by omega
    have hsnd : (closedRing (r0 :: rtl))[k + 1] = r0 := by
      simp only [closedRing_cons]
      rw [List.getElem_cons_succ]
      have hge' : rtl.length ≤ k := by
        simp at heq
        omega
      rw [List.getElem_append_right hge']
      have hz : k - rtl.length = 0 := by
        simp at heq
        omega
      simp [hz]
    rw [hsnd]
    unfold ringV finNext
    rw [Prod.mk.injEq]
    refine ⟨by rw [List.get_eq_getElem], ?_⟩
    rw [List.get_eq_getElem]
    have heq' : k + 1 = rtl.length + 1 := by simpa using heq
    have hz : (k + 1) % (rtl.length + 1) = 0 := by
      rw [heq', Nat.mod_self]
    simp [hz]

theorem countP_pip_closedRing {ring : List Pt} (hne : ring ≠ []) (q : Pt) :
    (pipPairs (closedRing ring)).countP (pipCross q) =
      (Finset.univ.filter
        (fun i : Fin ring.length =>
          pipCross q (ringV ring i, ringV ring (finNext i)) = true)).card := by
  obtain ⟨r0, rtl, rfl⟩ : ∃ r0 rtl, ring = r0 :: rtl := by
    cases ring with
    | nil => exact absurd rfl hne
    | cons a l => exact ⟨a, l, rfl⟩
  rw [pipPairs_closedRing, List.countP_cons, pipCross_degenerate]
  simp only [Bool.false_eq_true, if_false, Nat.add_zero]
  rw [countP_eq_card_filter_fin]
  have hlen := segPairs_closedRing_length (r0 :: rtl) hne
  apply Finset.card_equiv (finCongr hlen)
  intro i
  simp only [Finset.mem_filter, Finset.mem_univ, true_and, finCongr_apply]
  have hi1 : i.val < (r0 :: rtl).length := by
    have := i.isLt
    omega
  rw [List.get_eq_getElem, segPairs_closedRing_getElem hne i.val hi1 i.isLt]
  have hcast : (⟨i.val, hi1⟩ : Fin (r0 :: rtl).length) = Fin.cast hlen i :=
    Fin.ext rfl
  rw [hcast]

theorem pipCross_char {q a b : Pt} (hleft : 0 < ccw a b q) :
    pipCross q (a, b) = true ↔ (a.y ≤ q.y ∧ q.y < b.y) := by
  have key : (a.x - b.x) * (q.y - b.y) - (q.x - b.x) * (a.y - b.y) = -ccw a b q := by
    simp only [ccw]
    ring
  simp only [pipCross, Bool.and_eq_true, decide_eq_true_eq, gt_iff_lt, ne_eq,
    eq_iff_iff]
  constructor
  · rintro ⟨hspan, hx⟩
    by_cases hb : q.y < b.y
    · refine ⟨?_, hb⟩
      by_contra hay
      push_neg at hay
      exact hspan (iff_of_true hb hay)
    · exfalso
      have ha : q.y < a.y := by
        by_contra ha
        exact hspan (iff_of_false hb ha)
      have hd : 0 < a.y - b.y := by linarith
      rw [← sub_lt_iff_lt_add, lt_div_iff hd] at hx
      linarith [key, hleft, hx]
  · rintro ⟨hay, hby⟩
    have hd : a.y - b.y < 0 := by linarith
    refine ⟨?_, ?_⟩
    · intro hiff
      exact absurd (hiff.mp hby) (not_lt.mpr hay)
    · rw [← sub_lt_iff_lt_add, lt_div_iff_of_neg hd]
      linarith [key, hleft]

theorem crossCount_eq_upCount {n : ℕ} {V : Fin n → Pt} {q : Pt}
    (hleft : ∀ i : Fin n, 0 < ccw (V i) (V (finNext i)) q) :
    (Finset.univ.filter
        (fun i : Fin n => pipCross q (V i, V (finNext i)) = true)).card =
      (Finset.univ.filter
        (fun i : Fin n => (V i).y ≤ q.y ∧ q.y < (V (finNext i)).y)).card := by
  congr 1
  apply Finset.filter_congr
  intro i _
  exact pipCross_char (hleft i)

theorem up_down_count_eq {n : ℕ} (V : Fin n → Pt) (q : Pt) :
    (Finset.univ.filter
        (fun i : Fin n => (V i).y ≤ q.y ∧ q.y < (V (finNext i)).y)).card =
      (Finset.univ.filter
        (fun i : Fin n => q.y < (V i).y ∧ (V (finNext i)).y ≤ q.y)).card := by
  have hbij : Function.Bijective (finNext (n := n)) :=
    finNext_inj.bijective_of_finite
  have hsum : ∑ i : Fin n, (if q.y < (V (finNext i)).y then (1 : ℤ) else 0) =
      ∑ i : Fin n, (if q.y < (V i).y then (1 : ℤ) else 0) :=
    Fintype.sum_bijective finNext hbij _ _ (fun i => rfl)
  have hpt : ∀ i : Fin n,
      (if (V i).y ≤ q.y ∧ q.y < (V (finNext i)).y then (1 : ℤ) else 0) -
        (if q.y < (V i).y ∧ (V (finNext i)).y ≤ q.y then (1 : ℤ) else 0) =
      (if q.y < (V (finNext i)).y then (1 : ℤ) else 0) -
        (if q.y < (V i).y then (1 : ℤ) else 0) := by
    intro i
    rcases lt_or_le q.y (V i).y with ha | ha <;>
      rcases lt_or_le q.y ((V (finNext i)).y) with hb | hb
    · simp [ha, hb, not_le.mpr ha, not_le.mpr hb]
    · simp [ha, hb, not_le.mpr ha, not_lt.mpr hb]
    · simp [ha, hb, not_lt.mpr ha]
    · simp [ha, hb, not_lt.mpr ha, not_lt.mpr hb]
  have hup : ((Finset.univ.filter
      (fun i : Fin n => (V i).y ≤ q.y ∧ q.y < (V (finNext i)).y)).card : ℤ) =
      ∑ i : Fin n,
        (if (V i).y ≤ q.y ∧ q.y < (V (finNext i)).y then (1 : ℤ) else 0) := by
    rw [Finset.card_filter]
    push_cast
    rfl
  have hdown : ((Finset.univ.filter
      (fun i : Fin n => q.y < (V i).y ∧ (V (finNext i)).y ≤ q.y)).card : ℤ) =
      ∑ i : Fin n,
        (if q.y < (V i).y ∧ (V (finNext i)).y ≤ q.y then (1 : ℤ) else 0) := by
    rw [Finset.card_filter]
    push_cast
    rfl
  have hzero : ∑ i : Fin n,
      ((if (V i).y ≤ q.y ∧ q.y < (V (finNext i)).y then (1 : ℤ) else 0) -
        (if q.y < (V i).y ∧ (V (finNext i)).y ≤ q.y then (1 : ℤ) else 0)) = 0 := by
    rw [Finset.sum_congr rfl (fun i _ => hpt i), Finset.sum_sub_distrib, hsum]
    ring
  rw [Finset.sum_sub_distrib] at hzero
  have hcard : ((Finset.univ.filter
      (fun i : Fin n => (V i).y ≤ q.y ∧ q.y < (V (finNext i)).y)).card : ℤ) =
      ((Finset.univ.filter
        (fun i : Fin n => q.y < (V i).y ∧ (V (finNext i)).y ≤ q.y)).card : ℤ) := by
    rw [hup, hdown]
    linarith
  exact_mod_cast hcard

theorem ccw_lerp_self (a b : Pt) (t : ℚ) : ccw a b (lerp a b t) = 0 := by
  rw [ccw_lerp, ccw_self_base, ccw_self_mid]
  ring

theorem finNext_eq_add_one {n : ℕ} [NeZero n] (i : Fin n) : finNext i = i + 1 := by
  apply Fin.ext
  show (i.val + 1) % n = (i + 1).val
  rw [Fin.val_add, Fin.val_one']
  conv_lhs => rw [Nat.add_mod]
  rw [Nat.mod_eq_of_lt i.isLt]

theorem cross_x_compare {a b p p' : Pt} (hy : p.y = p'.y)
    (hzero : ccw a b p = 0) (hnn : 0 ≤ ccw a b p') (hd : 0 < b.y - a.y) :
    p'.x ≤ p.x := by
  have key : ccw a b p' - ccw a b p =
      (b.x - a.x) * (p'.y - p.y) - (b.y - a.y) * (p'.x - p.x) := by
    simp only [ccw]
    ring
  rw [hy, sub_self, mul_zero, zero_sub] at key
  by_contra hx
  push_neg at hx
  have hprod : 0 < (b.y - a.y) * (p'.x - p.x) := mul_pos hd (sub_pos.mpr hx)
  linarith

theorem up_edges_eq {n : ℕ} (hn : 3 ≤ n) {V : Fin n → Pt} (hconv : SCC V) {q : Pt}
    {i i' : Fin n}
    (hi : (V i).y ≤ q.y ∧ q.y < (V (finNext i)).y)
    (hi' : (V i').y ≤ q.y ∧ q.y < (V (finNext i')).y) : i = i' := by
  obtain ⟨hia, hib⟩ := hi
  obtain ⟨hia', hib'⟩ := hi'
  by_contra hne
  have hne' : i' ≠ i := fun h => hne h.symm
  have hA : i' ≠ finNext i := by
    intro h
    rw [h] at hia'
    linarith
  have hB : finNext i' ≠ i := by
    intro h
    rw [h] at hib'
    linarith
  have hC : finNext i' ≠ finNext i := fun h => hne (finNext_inj h).symm
  have hpos1 : 0 < ccw (V i) (V (finNext i)) (V i') := hconv i i' hne' hA
  have hpos2 : 0 < ccw (V i) (V (finNext i)) (V (finNext i')) :=
    hconv i (finNext i') hB hC
  have hd : 0 < (V (finNext i)).y - (V i).y := by linarith
  have hd' : 0 < (V (finNext i')).y - (V i').y := by linarith
  set t : ℚ := (q.y - (V i).y) / ((V (finNext i)).y - (V i).y) with htdef
  set s : ℚ := (q.y - (V i').y) / ((V (finNext i')).y - (V i').y) with hsdef
  have ht0 : 0 ≤ t := div_nonneg (by linarith) hd.le
  have ht1 : t < 1 := (div_lt_one hd).mpr (by linarith)
  have hs0 : 0 ≤ s := div_nonneg (by linarith) hd'.le
  have hs1 : s < 1 := (div_lt_one hd').mpr (by linarith)
  set p : Pt := lerp (V i) (V (finNext i)) t with hpdef
  set r : Pt := lerp (V i') (V (finNext i')) s with hrdef
  have hpy : p.y = q.y := by
    rw [hpdef]
    simp only [lerp]
    rw [htdef, div_mul_cancel₀ _ (ne_of_gt hd)]
    ring
  have hry : r.y = q.y := by
    rw [hrdef]
    simp only [lerp]
    rw [hsdef, div_mul_cancel₀ _ (ne_of_gt hd')]
    ring
  have hseg_p : Seg (V i) (V (finNext i)) p := seg_iff_lerp.mpr ⟨t, ht0, ht1.le, hpdef⟩
  have hseg_r : Seg (V i') (V (finNext i')) r := seg_iff_lerp.mpr ⟨s, hs0, hs1.le, hrdef⟩
  have hz_p : ccw (V i) (V (finNext i)) p = 0 := by
    rw [hpdef]
    exact ccw_lerp_self _ _ _
  have hz_r : ccw (V i') (V (finNext i')) r = 0 := by
    rw [hrdef]
    exact ccw_lerp_self _ _ _
  have hnn_r : 0 ≤ ccw (V i) (V (finNext i)) r := edge_point_halfplane hconv i hseg_r
  have hnn_p : 0 ≤ ccw (V i') (V (finNext i')) p := edge_point_halfplane hconv i' hseg_p
  have hyy : p.y = r.y := by rw [hpy, hry]
  have hx1 : r.x ≤ p.x := cross_x_compare hyy hz_p hnn_r hd
  have hx2 : p.x ≤ r.x := cross_x_compare hyy.symm hz_r hnn_p hd'
  have hpr : p = r := Pt.ext (le_antisymm hx2 hx1) hyy
  have hexp : ccw (V i) (V (finNext i)) (lerp (V i') (V (finNext i')) s) = 0 := by
    rw [← hrdef, ← hpr]
    exact hz_p
  rw [ccw_lerp] at hexp
  have hterm1 : 0 < (1 - s) * ccw (V i) (V (finNext i)) (V i') :=
    mul_pos (by linarith) hpos1
  have hterm2 : 0 ≤ s * ccw (V i) (V (finNext i)) (V (finNext i')) :=
    mul_nonneg hs0 hpos2.le
  linarith

theorem exists_above {n : ℕ} (hn : 3 ≤ n) {V : Fin n → Pt} (hconv : SCC V)
    {q : Pt} (hq : StrictInCCW V q) : ∃ j : Fin n, q.y < (V j).y := by
  obtain ⟨t, ht⟩ := strictInCCW_dir_bound hn hconv hq 0 1 (by norm_num)
  exact ⟨t, by linarith⟩

theorem exists_below {n : ℕ} (hn : 3 ≤ n) {V : Fin n → Pt} (hconv : SCC V)
    {q : Pt} (hq : StrictInCCW V q) : ∃ j : Fin n, (V j).y < q.y := by
  obtain ⟨t, ht⟩ := strictInCCW_dir_bound hn hconv hq 0 (-1) (by norm_num)
  exact ⟨t, by linarith⟩

theorem up_edge_exists {n : ℕ} (hn : 3 ≤ n) {V : Fin n → Pt} (hconv : SCC V)
    {q : Pt} (hq : StrictInCCW V q) :
    ∃ i : Fin n, (V i).y ≤ q.y ∧ q.y < (V (finNext i)).y := by
  by_contra hno
  push_neg at hno
  obtain ⟨ja, hja⟩ := exists_above hn hconv hq
  obtain ⟨jb, hjb⟩ := exists_below hn hconv hq
  haveI : NeZero n := ⟨by omega⟩
  have hiter : ∀ m : ℕ, (V (jb + (m : Fin n))).y ≤ q.y := by
    intro m
    induction m with
    | zero => simpa using hjb.le
    | succ m ih =>
      have h := hno (jb + (m : Fin n)) ih
      rw [finNext_eq_add_one] at h
      rw [Nat.cast_succ, ← add_assoc]
      exact h
  have hreach : jb + (((ja - jb).val : ℕ) : Fin n) = ja := by
    rw [Fin.cast_val_eq_self]
    ring
  have hcontra := hiter (ja - jb).val
  rw [hreach] at hcontra
  linarith

theorem upCount_eq_one {n : ℕ} (hn : 3 ≤ n) {V : Fin n → Pt} (hconv : SCC V)
    {q : Pt} (hq : StrictInCCW V q) :
    (Finset.univ.filter
        (fun i : Fin n => (V i).y ≤ q.y ∧ q.y < (V (finNext i)).y)).card = 1 := by
  obtain ⟨i, hiu⟩ := up_edge_exists hn hconv hq
  have hle : (Finset.univ.filter
      (fun i : Fin n => (V i).y ≤ q.y ∧ q.y < (V (finNext i)).y)).card ≤ 1 := by
    refine Finset.card_le_one.mpr (fun a ha b hb => ?_)
    simp only [Finset.mem_filter] at ha hb
    exact up_edges_eq hn hconv ha.2 hb.2
  have hge : 0 < (Finset.univ.filter
      (fun i : Fin n => (V i).y ≤ q.y ∧ q.y < (V (finNext i)).y)).card :=
    Finset.card_pos.mpr ⟨i, Finset.mem_filter.mpr ⟨Finset.mem_univ i, hiu⟩⟩
  omega

theorem pointInPolygon_strict {ring : List Pt} (hn : 3 ≤ ring.length)
    (hconv : SCC (ringV ring)) {q : Pt} (hq : StrictInCCW (ringV ring) q) :
    pointInPolygon q (closedRing ring) = true := by
  have hne : ring ≠ [] := by
    intro h
    rw [h] at hn
    simp at hn
  rw [pointInPolygon_parity, countP_pip_closedRing hne,
    crossCount_eq_upCount hq, upCount_eq_one hn hconv hq]
  rfl

theorem on_edge_of_boundary {n : ℕ} (hn : 3 ≤ n) {V : Fin n → Pt} (hconv : SCC V)
    {c : Pt} (hc : InCCW V c) {i : Fin n}
    (hzero : ccw (V i) (V (finNext i)) c = 0) :
    Seg (V i) (V (finNext i)) c := by
  have hneq : V i ≠ V (finNext i) := by
    intro h
    have hgt := SCC_turn hn hconv i
    rw [h, ccw_degenerate] at hgt
    exact lt_irrefl 0 hgt
  have hori : orientation (V i) (V (finNext i)) c = 0 := by
    rw [orientation_eq_neg_ccw, hzero, neg_zero]
  have hcl := colinear_param hneq hori
  obtain ⟨pv, hpv⟩ := finNext_surj i
  have hturn1 : 0 < ccw (V pv) (V i) (V (finNext i)) := by
    have h := SCC_turn hn hconv pv
    rwa [hpv] at h
  have hlow : 0 ≤ tau (V i) (V (finNext i)) c := by
    have h := hc pv
    rw [hpv] at h
    rw [hcl, ccw_lerp, ccw_self_mid] at h
    by_contra hs
    push_neg at hs
    nlinarith [mul_neg_of_neg_of_pos hs hturn1]
  have hturn2 : 0 < ccw (V (finNext i)) (V (finNext (finNext i))) (V i) :=
    hconv (finNext i) i (Ne.symm (finNext_ne (by omega) i))
      (Ne.symm (finNext_next_ne_self hn i))
  have hhigh : tau (V i) (V (finNext i)) c ≤ 1 := by
    have h := hc (finNext i)
    rw [hcl, ccw_lerp, ccw_self_base] at h
    by_contra hs
    push_neg at hs
    nlinarith [mul_neg_of_neg_of_pos
      (by linarith : 1 - tau (V i) (V (finNext i)) c < 0) hturn2]
  exact seg_iff_lerp.mpr ⟨_, hlow, hhigh, hcl⟩

theorem seg_symm {a b q : Pt} (h : Seg a b q) : Seg b a q := by
  obtain ⟨t, h0, h1, hx, hy⟩ := h
  exact ⟨1 - t, by linarith, by linarith, by rw [hx]; ring, by rw [hy]; ring⟩

theorem pipCross_swap (q a b : Pt) : pipCross q (a, b) = pipCross q (b, a) := by
  by_cases hy : a.y = b.y
  · simp [pipCross, hy]
  · have hxeq : (a.x - b.x) * (q.y - b.y) / (a.y - b.y) + b.x =
        (b.x - a.x) * (q.y - a.y) / (b.y - a.y) + a.x := by
      have h1 : a.y - b.y ≠ 0 := sub_ne_zero.mpr hy
      have h2 : b.y - a.y ≠ 0 := sub_ne_zero.mpr (Ne.symm hy)
      field_simp
      ring
    simp only [pipCross]
    rw [hxeq]
    congr 1
    exact decide_eq_decide.mpr ne_comm

theorem scc_reverse {n : ℕ} [NeZero n] (hn : 3 ≤ n) {V : Fin n → Pt}
    (hcw : ∀ i j : Fin n, j ≠ i → j ≠ finNext i →
      ccw (V i) (V (finNext i)) (V j) < 0) :
    SCC (fun i : Fin n => V (-i - 1)) := by
  intro i j hji hjn
  simp only
  rw [finNext_eq_add_one] at hjn ⊢
  have hk : finNext (-i - 1 - 1) = -i - 1 := by
    rw [finNext_eq_add_one]
    ring
  have hm1 : (-j - 1 : Fin n) ≠ (-i - 1 - 1) := by
    intro h
    apply hjn
    linear_combination -h
  have hm2 : (-j - 1 : Fin n) ≠ finNext (-i - 1 - 1) := by
    rw [hk]
    intro h
    apply hji
    linear_combination -h
  have h := hcw (-i - 1 - 1) (-j - 1) hm1 hm2
  rw [hk] at h
  rw [show (-(i + 1) - 1 : Fin n) = -i - 1 - 1 from by ring]
  rw [ccw_swap]
  linarith

theorem strictIn_reverse {n : ℕ} [NeZero n] {V : Fin n → Pt} {q : Pt}
    (hq : ∀ i : Fin n, ccw (V i) (V (finNext i)) q < 0) :
    StrictInCCW (fun i : Fin n => V (-i - 1)) q := by
  intro i
  simp only
  rw [finNext_eq_add_one, show (-(i + 1) - 1 : Fin n) = -i - 1 - 1 from by ring]
  have h := hq (-i - 1 - 1)
  rw [finNext_eq_add_one, show (-i - 1 - 1 + 1 : Fin n) = -i - 1 from by ring] at h
  rw [ccw_swap]
  linarith

theorem in_reverse {n : ℕ} [NeZero n] {V : Fin n → Pt} {q : Pt}
    (hq : ∀ i : Fin n, ccw (V i) (V (finNext i)) q ≤ 0) :
    InCCW (fun i : Fin n => V (-i - 1)) q := by
  intro i
  simp only
  rw [finNext_eq_add_one, show (-(i + 1) - 1 : Fin n) = -i - 1 - 1 from by ring]
  have h := hq (-i - 1 - 1)
  rw [finNext_eq_add_one, show (-i - 1 - 1 + 1 : Fin n) = -i - 1 from by ring] at h
  rw [ccw_swap]
  linarith

theorem crossCount_reverse {n : ℕ} [NeZero n] (V : Fin n → Pt) (q : Pt) :
    (Finset.univ.filter
        (fun i : Fin n => pipCross q (V i, V (finNext i)) = true)).card =
      (Finset.univ.filter
        (fun i : Fin n =>
          pipCross q (V (-i - 1), V (-(finNext i) - 1)) = true)).card := by
  apply Finset.card_equiv (Equiv.subLeft (-1 - 1 : Fin n))
  intro i
  simp only [Finset.mem_filter, Finset.mem_univ, true_and, Equiv.subLeft_apply]
  simp only [finNext_eq_add_one]
  rw [show (-(-1 - 1 - i) - 1 : Fin n) = i + 1 from by ring,
    show (-(-1 - 1 - i + 1) - 1 : Fin n) = i from by ring,
    pipCross_swap q (V i) (V (i + 1))]

theorem pointInPolygon_strict_cw {ring : List Pt} [NeZero ring.length]
    (hn : 3 ≤ ring.length) (hcw : StrictConvexRingCW ring) {q : Pt}
    (hq : StrictInCCW (fun i : Fin ring.length => ringV ring (-i - 1)) q) :
    pointInPolygon q (closedRing ring) = true := by
  have hne : ring ≠ [] := by
    intro h
    rw [h] at hn
    simp at hn
  have hcount : (Finset.univ.filter
      (fun i : Fin ring.length =>
        pipCross q (ringV ring (-i - 1), ringV ring (-(finNext i) - 1)) = true)).card = 1 :=
    (crossCount_eq_upCount hq).trans (upCount_eq_one hn (scc_reverse hn hcw) hq)
  rw [pointInPolygon_parity, countP_pip_closedRing hne, crossCount_reverse, hcount]
  rfl

theorem ring_edge_mem_segPairs {ring : List Pt} (hne : ring ≠ []) (i : Fin ring.length) :
    (ringV ring i, ringV ring (finNext i)) ∈ segPairs (closedRing ring) := by
  have hlen := segPairs_closedRing_length ring hne
  have hk : i.val < (segPairs (closedRing ring)).length := by
    rw [hlen]
    exact i.isLt
  have hget : (segPairs (closedRing ring))[i.val] =
      (ringV ring i, ringV ring (finNext i)) :=
    segPairs_closedRing_getElem hne i.val i.isLt hk
  rw [← hget]
  exact List.getElem_mem hk

theorem getRunsInPolygon_core {st : SIState} {e : IdxEntry} {rd : RunData}
    {c0 c1 : Pt} {ctl : List Pt} {ring : List Pt} {n : ℕ} {V : Fin n → Pt}
    (hl : st.loaded = true) (he : e ∈ st.spatialIndex)
    (hrd : st.runsData.lookup e.id = some rd)
    (hfull : rd.geoms.full = some ⟨c0 :: c1 :: ctl⟩)
    (hbb : e.bbox = getPolygonBbox (c0 :: c1 :: ctl))
    (hn : 3 ≤ n) (hconv : SCC V)
    (hVmem : ∀ i : Fin n, inBbox (getPolygonBbox (closedRing ring)) (V i))
    (hcont : ∀ c ∈ (c0 :: c1 :: ctl), InCCW V c)
    (hpip : StrictInCCW V c0 → pointInPolygon c0 (closedRing ring) = true)
    (hedge : ∀ i : Fin n, ccw (V i) (V (finNext i)) c0 = 0 →
      ∃ k : Fin ring.length,
        (ringV ring k, ringV ring (finNext k)) ∈ segPairs (closedRing ring) ∧
          Seg (ringV ring k) (ringV ring (finNext k)) c0) :
    e.id ∈ (getRunsInPolygon st (closedRing ring)).map RunSummary.id := by
  have hc0bb : inBbox (getPolygonBbox (closedRing ring)) c0 :=
    inCCW_inBbox hn hconv (hcont c0 (by simp)) hVmem
  have hc0run : inBbox e.bbox c0 := by
    rw [hbb]
    exact getPolygonBbox_mem (by simp)
  have hint : bboxIntersects e.bbox (getPolygonBbox (closedRing ring)) = true :=
    bboxIntersects_of_common hc0run hc0bb
  have hchain : rd.geoms.full.or (rd.geoms.high.or (rd.geoms.mid.or rd.geoms.low)) =
      some ⟨c0 :: c1 :: ctl⟩ := by
    rw [hfull]
    rfl
  by_cases hstrict : StrictInCCW V c0
  · exact mem_getRunsInPolygon hl he hrd hint
      (polygonIntersectTest_of_vertex hchain (by simp) (hpip hstrict))
  · unfold StrictInCCW at hstrict
    push_neg at hstrict
    obtain ⟨i, hiz⟩ := hstrict
    have hz : ccw (V i) (V (finNext i)) c0 = 0 :=
      le_antisymm hiz (hcont c0 (by simp) i)
    obtain ⟨k, hkmem, hkseg⟩ := hedge i hz
    have hsa : ((c0, c1) : Pt × Pt) ∈ segPairs (c0 :: c1 :: ctl) := by
      simp [segPairs]
    have hseg : segmentsIntersect c0 c1 (ringV ring k) (ringV ring (finNext k)) = true :=
      (segmentsIntersect_iff_common _ _ _ _).mpr ⟨c0, seg_endpoint_left _ _, hkseg⟩
    exact mem_getRunsInPolygon hl he hrd hint
      (polygonIntersectTest_of_line hchain
        (lineIntersectsPolygon_of_mem hsa hkmem hseg))

/-- C5: polygon inclusion.  For a loaded store, a registered activity whose
full-resolution geometry (of at least two points, as the data model
guarantees) consists entirely of points inside or on a strictly convex lasso
ring — given counterclockwise or clockwise — the polygon query returns the
activity's id.  The lasso is passed in its closed form (first point repeated
at the end), as the callers of `getRunsInPolygon` provide it. -/
theorem c5_polygon_inclusion (st : SIState) (e : IdxEntry) (rd : RunData)
    (coords ring : List Pt)
    (hl : st.loaded = true) (he : e ∈ st.spatialIndex)
    (hrd : st.runsData.lookup e.id = some rd)
    (hfull : rd.geoms.full = some ⟨coords⟩)
    (hbb : e.bbox = getPolygonBbox coords)
    (hc2 : 2 ≤ coords.length)
    (hn : 3 ≤ ring.length)
    (hcont :
      (StrictConvexRing ring ∧ ∀ c ∈ coords, InCCW (ringV ring) c) ∨
      (StrictConvexRingCW ring ∧ ∀ c ∈ coords, InCW ring c)) :
    e.id ∈ (getRunsInPolygon st (closedRing ring)).map RunSummary.id := by
  obtain ⟨c0, ctl, rfl⟩ : ∃ c0 ctl, coords = c0 :: ctl := by
    cases coords with
    | nil => norm_num at hc2
    | cons a l => exact ⟨a, l, rfl⟩
  obtain ⟨c1, ctl2, rfl⟩ : ∃ c1 ctl2, ctl = c1 :: ctl2 := by
    cases ctl with
    | nil => norm_num at hc2
    | cons a l => exact ⟨a, l, rfl⟩
  have hne : ring ≠ [] := by
    intro h
    rw [h] at hn
    simp at hn
  haveI : NeZero ring.length := ⟨by omega⟩
  have hringmem : ∀ i : Fin ring.length,
      inBbox (getPolygonBbox (closedRing ring)) (ringV ring i) := by
    intro i
    apply getPolygonBbox_mem
    unfold closedRing
    exact List.mem_append_left _ (List.get_mem ring i.val i.isLt)
  rcases hcont with ⟨hconvR, hcontain⟩ | ⟨hcwR, hcontain⟩
  · exact getRunsInPolygon_core hl he hrd hfull hbb hn hconvR hringmem hcontain
      (fun hs => pointInPolygon_strict hn hconvR hs)
      (fun i hz => ⟨i, ring_edge_mem_segPairs hne i,
        on_edge_of_boundary hn hconvR (hcontain c0 (by simp)) hz⟩)
  · have hconvW : SCC (fun i : Fin ring.length => ringV ring (-i - 1)) :=
      scc_reverse hn hcwR
    have hcontW : ∀ c ∈ (c0 :: c1 :: ctl2),
        InCCW (fun i : Fin ring.length => ringV ring (-i - 1)) c :=
      fun c hc => in_reverse (hcontain c hc)
    refine getRunsInPolygon_core hl he hrd hfull hbb hn hconvW
      (fun i => hringmem (-i - 1)) hcontW
      (fun hs => pointInPolygon_strict_cw hn hcwR hs) ?_
    intro i hz
    have hc0W : InCCW (fun j : Fin ring.length => ringV ring (-j - 1)) c0 :=
      hcontW c0 (by simp)
    have hsegW := on_edge_of_boundary hn hconvW hc0W hz
    refine ⟨-i - 1 - 1, ring_edge_mem_segPairs hne _, ?_⟩
    apply seg_symm
    rw [finNext_eq_add_one,
      show (-i - 1 - 1 + 1 : Fin ring.length) = -i - 1 from by ring]
    have h2 : (-(finNext i) - 1 : Fin ring.length) = -i - 1 - 1 := by
      rw [finNext_eq_add_one]
      ring
    rw [h2] at hsegW
    exact hsegW

/-- Witness for C5: the diagonal run `7` lies inside the counterclockwise
convex triangle `(-1,-1), (9,-1), (-1,9)` (its last point `(4,4)` exactly on
the hypotenuse), and the polygon query for the closed ring returns it. -/
theorem c5_polygon_inclusion_witness :
    7 ∈ ((getRunsInPolygon wState
        (closedRing [⟨-1, -1⟩, ⟨9, -1⟩, ⟨-1, 9⟩])).map RunSummary.id) := by
  refine c5_polygon_inclusion wState ⟨7, getPolygonBbox wTrack⟩
    ⟨buildGeoms wTrack, getPolygonBbox wTrack, "m"⟩ wTrack
    [⟨-1, -1⟩, ⟨9, -1⟩, ⟨-1, 9⟩]
    rfl (by norm_num [wState]) rfl rfl rfl (by norm_num [wTrack]) (by norm_num)
    (Or.inl ⟨?_, ?_⟩)
  · intro i j hji hjn
    fin_cases i <;> fin_cases j <;>
      first
        | (exact absurd rfl hji)
        | (exact absurd rfl hjn)
        | (norm_num [ringV, ccw, finNext])
  · intro c hc
    fin_cases hc <;> (intro i; fin_cases i <;> norm_num [ringV, ccw, finNext, wTrack])

end Heatmap
